import Mathlib

/-!
Verification of the CBMC sharing map (`src/util/sharing_map.h`), a fixed-height
hash trie with structural sharing.

Keys and values are modelled as natural numbers; the key hash function is a
parameter `hash : Nat → Nat` (mirroring the `hashT` template parameter).
Machine `std::size_t` arithmetic (`&`, `>>`) is modelled on `Nat`; the
operations only ever shift right and mask, so no overflow is possible and no
modular reduction is needed.

Physical identity of reference-counted nodes (the engine of `shares_with`) is
modelled by an identity tag (`nid` / `lid`) carried by every node and leaf:
two nodes share if and only if they have the same kind and the same tag.
Cloning a map copies the root handle, hence preserves all tags; newly
allocated nodes are modelled with tag 0.  Mutating operations are modelled as
functional updates that keep the tag of the node they update (the
refcount-one in-place case of the code); no theorem below depends on the tags
produced by mutation.

The node class `sharing_nodet` lives in `sharing_node.h`, which is not part of
the sources; its primitives (`find_child`, `place_leaf`, `remove_leaf`,
`shares_with`, ...) are modelled from the specification, section 4.1 ("Trie
node" contract); each such definition carries a note.  Everything else is a
direct rendering of the code in `sharing_map.h`, with source line references.
-/

namespace SharingMap

/-! ## Configuration constants (sharing_map.h:1325-1333) -/

/-- Number of hash bits consumed by the trie (sharing_map.h:1329). -/
def bits : Nat := 30

/-- Bits per trie level (sharing_map.h:1330). -/
def chunk : Nat := 3

/-- Chunk mask, computed exactly as in the source (sharing_map.h:1332). -/
def mask : Nat := 0xffff >>> (16 - chunk)

/-- Height of the trie (sharing_map.h:1333). -/
def levels : Nat := bits / chunk

/-- Sentinel level pushed for internal-vs-container stack items
(sharing_map.h:1327). -/
def dummy_level : Nat := 0xff

/-! ## Nodes and leaves

A leaf is a key-value pair (`sharing_node_leaft`); a trie node
(`sharing_node_innert`) is empty, internal (an ordered chunk-to-child map,
modelling the `std::map` in `d_it`) or a container (a list of collision
leaves, modelling the `std::forward_list` in `d_ct`).  Modelled from the
spec, section 2 ("Trie node") and section 4.1, as `sharing_node.h` is not in
the sources. -/

structure leaft where
  lid : Nat
  key : Nat
  value : Nat
deriving Repr, DecidableEq

inductive innert where
  | empty : innert
  | internal (nid : Nat) (m : List (Nat × innert)) : innert
  | container (nid : Nat) (ll : List leaft) : innert
deriving Repr

/-- State discriminator `is_internal`.  Modelled from the spec (4.1). -/
def is_internal : innert → Bool
  | .internal _ _ => true
  | _ => false

/-- State discriminator `is_container`.  Modelled from the spec (4.1). -/
def is_container : innert → Bool
  | .container _ _ => true
  | _ => false

/-- State discriminator `empty()` on a node.  Modelled from the spec (4.1). -/
def is_empty_node : innert → Bool
  | .empty => true
  | _ => false

/-- Physical-identity test on nodes: both handles refer to the same
underlying allocation.  Modelled from the spec (4.1, `shares_with`): two
nodes share iff they have the same kind and the same identity tag. -/
def shares_with : innert → innert → Bool
  | .internal i _, .internal j _ => i == j
  | .container i _, .container j _ => i == j
  | _, _ => false

/-- Physical-identity test on leaves.  Modelled from the spec (4.1). -/
def leaf_shares_with (l1 l2 : leaft) : Bool := l1.lid == l2.lid

/-- Child lookup in the ordered chunk-to-child list of an internal node.
Modelled from the spec (4.1, `find_child`). -/
def lookup_child : List (Nat × innert) → Nat → Option innert
  | [], _ => none
  | (b, c) :: rest, bit => if b = bit then some c else lookup_child rest bit

/-- `find_child(i)`: child at chunk value `i` of an internal node, if any.
Modelled from the spec (4.1). -/
def find_child : innert → Nat → Option innert
  | .internal _ m, bit => lookup_child m bit
  | _, _ => none

/-- `find_leaf(k)` on a container: linear search by key equality.  Modelled
from the spec (4.1). -/
def find_leaf : innert → Nat → Option leaft
  | .container _ ll, k => ll.find? fun l => l.key == k
  | _, _ => none

/-- `place_leaf(k, v)`: install a new leaf into an empty node or a container
(the `std::forward_list` is extended at the front).  Modelled from the spec
(4.1). -/
def place_leaf (n : innert) (k v : Nat) : innert :=
  match n with
  | .empty => .container 0 [⟨0, k, v⟩]
  | .container i ll => .container i (⟨0, k, v⟩ :: ll)
  | .internal i m => .internal i m

/-- `remove_leaf(k)` on a container list: drop the (first) leaf with the
given key.  Modelled from the spec (4.1). -/
def remove_leaf : List leaft → Nat → List leaft
  | [], _ => []
  | l :: rest, k => if l.key == k then rest else l :: remove_leaf rest k

/-- `is_singular(ll)`: the collision list holds exactly one leaf
(sharing_map.h:589-592). -/
def is_singular : List leaft → Bool
  | [_] => true
  | _ => false

/-! ## Node sizes (for termination of the stack-based traversals) -/

mutual
def sizeN : innert → Nat
  | .empty => 1
  | .internal _ m => 1 + sizeL m
  | .container _ _ => 1

def sizeL : List (Nat × innert) → Nat
  | [] => 0
  | (_, c) :: rest => sizeN c + sizeL rest
end

/-! ## Entries of a subtree

`entriesOf n` lists the key-value pairs stored beneath `n` in the order the
stack-based `iterate` (sharing_map.h:616-657) emits them: the work stack
receives the children of an internal node in ascending chunk order and pops
them in descending order, so children are traversed in descending chunk
order, and the leaves of a container in list order. -/

mutual
def entriesOf : innert → List (Nat × Nat)
  | .empty => []
  | .internal _ m => entriesOfL m
  | .container _ ll => ll.map fun l => (l.key, l.value)

def entriesOfL : List (Nat × innert) → List (Nat × Nat)
  | [] => []
  | (_, c) :: rest => entriesOfL rest ++ entriesOf c
end

/-! ## Lookup (sharing_map.h:1062-1090, const `get_container_node`)

The source walks the trie in a loop: take the low chunk of the remaining
hash, follow `find_child`, stop at the first container.  Rendered as mutual
structural recursion with the child lookup inlined. -/

mutual
def get_container_loop : innert → Nat → Option innert
  | .internal _ m, key => get_container_childL m (key &&& mask) (key >>> chunk)
  | _, _ => none

def get_container_childL : List (Nat × innert) → Nat → Nat → Option innert
  | [], _, _ => none
  | (b, c) :: rest, bit, key =>
    if b = bit then
      match c with
      | .container i ll => some (.container i ll)
      | c2 => get_container_loop c2 key
    else get_container_childL rest bit key
end

/-! ## The map handle (sharing_map.h:609-613) -/

/-- The public map object: root node plus element count. -/
structure sharing_mapt where
  map : innert
  num : Nat
deriving Repr

/-- A freshly constructed (empty) map. -/
def empty_map : sharing_mapt := ⟨.empty, 0⟩

/-- `size()` (sharing_map.h:333-336). -/
def size (M : sharing_mapt) : Nat := M.num

/-- `empty()` (sharing_map.h:339-342). -/
def sm_empty (M : sharing_mapt) : Bool := M.num == 0

/-- `clear()` (sharing_map.h:345-349): reset the root node and the count. -/
def clear (_ : sharing_mapt) : sharing_mapt := ⟨.empty, 0⟩

section WithHash

variable (hash : Nat → Nat)

/-- Const `get_container_node` (sharing_map.h:1062-1090): `nullptr` when the
map is empty, otherwise the descent loop from the root. -/
def get_container_node (M : sharing_mapt) (k : Nat) : Option innert :=
  if M.num == 0 then none else get_container_loop M.map (hash k)

/-- `get_leaf_node` (sharing_map.h:526-536). -/
def get_leaf_node (M : sharing_mapt) (k : Nat) : Option leaft :=
  match get_container_node hash M k with
  | none => none
  | some cp => find_leaf cp k

/-- `find` (sharing_map.h:1314-1323). -/
def find (M : sharing_mapt) (k : Nat) : Option Nat :=
  (get_leaf_node hash M k).map leaft.value

/-- `has_key` (sharing_map.h:356-359). -/
def has_key (M : sharing_mapt) (k : Nat) : Bool :=
  (get_leaf_node hash M k).isSome

/-! ## Insert (sharing_map.h:1215-1277) and migrate (sharing_map.h:1142-1213) -/

/-- First leaf of a container as a singleton list
(`get_container().front()`); empty on a malformed node. -/
def front_leaf : innert → List leaft
  | .container _ (l :: _) => [l]
  | _ => []

/-- Key of the first leaf of a container. -/
def front_key : innert → Nat
  | .container _ (l :: _) => l.key
  | _ => 0

/-- The `do`-`while` loop of `migrate` (sharing_map.h:1184-1207), composed
with the subsequent `place_leaf` from `insert` (sharing_map.h:1258) that
fills the returned slot: emit internal nodes while the chunk streams of the
new key and of the existing key agree; once they differ, put the existing
container under one branch and a fresh container with the new leaf under the
other; if they agree down to the bottom, chain both leaves in the deepest
container (sharing_map.h:1209-1212). -/
def migrate_loop (level key key_existing : Nat) (container_copy : innert)
    (k v : Nat) : innert :=
  if h : level < levels then
    let bit_existing := key_existing &&& mask
    let bit := key &&& mask
    if bit ≠ bit_existing then
      .internal 0
        (if bit < bit_existing then
          [(bit, .container 0 [⟨0, k, v⟩]), (bit_existing, container_copy)]
        else
          [(bit_existing, container_copy), (bit, .container 0 [⟨0, k, v⟩])])
    else
      .internal 0
        [(bit, migrate_loop (level + 1) (key >>> chunk)
            (key_existing >>> chunk) container_copy k v)]
  else
    .container 0 (⟨0, k, v⟩ :: front_leaf container_copy)
termination_by levels - level
decreasing_by omega

/-- `migrate` (sharing_map.h:1142-1213): push a colliding singular container
one or more levels down; `key_suffix` is the hash of the new key shifted by
`chunk * starting_level`, and the hash of the existing key is recomputed and
shifted the same way (sharing_map.h:1160-1162).  Both streams are shifted by
one more chunk before the loop (sharing_map.h:1179-1180). -/
def migrate (starting_level key_suffix : Nat) (child : innert) (k v : Nat) :
    innert :=
  let key_existing := hash (front_key child) >>> (chunk * starting_level)
  migrate_loop (starting_level + 1) (key_suffix >>> chunk)
    (key_existing >>> chunk) child k v

mutual
/-- The walk of `insert` (sharing_map.h:1228-1276) over the child list of the
current internal node: find (or create, in chunk order, as `std::map` does)
the slot for the low chunk of the remaining hash and act on it. -/
def insert_children : List (Nat × innert) → Nat → Nat → Nat → Nat →
    List (Nat × innert)
  | [], _, key, k, v => [(key &&& mask, .container 0 [⟨0, k, v⟩])]
  | (b, c) :: rest, level, key, k, v =>
    if key &&& mask < b then
      (key &&& mask, .container 0 [⟨0, k, v⟩]) :: (b, c) :: rest
    else if key &&& mask = b then
      (b, insert_slot c level key k v) :: rest
    else
      (b, c) :: insert_children rest level key k v

/-- Action of `insert` on the child found at the current chunk
(sharing_map.h:1236-1273): an empty slot receives a fresh container with the
new leaf; a container below the bottom level is migrated downwards, at the
bottom level the leaf is chained; an internal child is descended into. -/
def insert_slot (c : innert) (level key k v : Nat) : innert :=
  match c with
  | .empty => place_leaf .empty k v
  | .container ci ll =>
    if level < levels - 1 then
      migrate hash level key (.container ci ll) k v
    else
      place_leaf (.container ci ll) k v
  | .internal ci mc =>
    .internal ci (insert_children mc (level + 1) (key >>> chunk) k v)
end

/-- `insert` descent from the root (sharing_map.h:1215-1277); on an empty
root, `add_child` first turns the root into an internal node. -/
def insert_node (n : innert) (level key k v : Nat) : innert :=
  match n with
  | .empty => .internal 0 (insert_children hash [] level key k v)
  | .internal i m => .internal i (insert_children hash m level key k v)
  | .container i ll => .container i ll

/-- `insert` (sharing_map.h:1215-1277): place the new leaf and increment the
element count.  Precondition (`SM_ASSERT(!has_key(k))`): the key is absent. -/
def insert (M : sharing_mapt) (k v : Nat) : sharing_mapt :=
  ⟨insert_node hash M.map 0 (hash k) k v, M.num + 1⟩

/-! ## Erase (sharing_map.h:1092-1140)

The source walks down to the container of the key while remembering the
deepest ancestor `del` with more than one child, then removes the whole
subtree below `del` when the container is singular, and otherwise removes
just the leaf.  Rendered bottom-up: removing a singular container (or a
child whose subtree emptied) from a child list, and propagating the removal
while the list becomes empty, removes exactly the subtree below the deepest
ancestor with more than one child. -/

/-- One erase step on the child list of an internal node: `bit` is the low
chunk of the remaining hash, `key` the hash shifted by one more chunk. -/
def erase_children : List (Nat × innert) → Nat → Nat → Nat →
    List (Nat × innert)
  | [], _, _, _ => []
  | (b, c) :: rest, bit, key, k =>
    if b = bit then
      match c with
      | .container ci ll =>
        if is_singular ll then rest
        else (b, .container ci (remove_leaf ll k)) :: rest
      | .internal ci mc =>
        let m2 := erase_children mc (key &&& mask) (key >>> chunk) k
        if m2.isEmpty then rest else (b, .internal ci m2) :: rest
      | .empty => (b, .empty) :: rest
    else (b, c) :: erase_children rest bit key k

/-- `erase` (sharing_map.h:1092-1140): remove the leaf (or the collapsed
spine above it) and decrement the element count.  Precondition
(`SM_ASSERT(has_key(k))`): the key is present.  The root node always
persists (`del` is initialised to the root, whose `remove_child` leaves an
internal node with an empty child map). -/
def erase (M : sharing_mapt) (k : Nat) : sharing_mapt :=
  match M.map with
  | .internal i m =>
    ⟨.internal i (erase_children m (hash k &&& mask) (hash k >>> chunk) k),
      M.num - 1⟩
  | _ => ⟨M.map, M.num - 1⟩

/-! ## Replace and update (sharing_map.h:1279-1312) -/

/-- `value_equalt` (sharing_map.h:204-214): value equality when
`fail_if_equal` is set, the constantly-false `falset` otherwise.  The same
conditional comparison implements `value_comparatort`
(sharing_map.h:216-245). -/
def value_equalt (fail_if_equal : Bool) (lhs rhs : Nat) : Bool :=
  if fail_if_equal then lhs == rhs else false

/-- Overwrite the value of the (first) leaf with the given key
(`set_value`).  The leaf keeps its identity tag, modelling the
refcount-one in-place write.  Modelled from the spec (4.1/4.5). -/
def set_leaf_value : List leaft → Nat → Nat → List leaft
  | [], _, _ => []
  | l :: rest, k, v =>
    if l.key == k then ⟨l.lid, l.key, v⟩ :: rest
    else l :: set_leaf_value rest k v

/-- Walk of the mutable `get_container_node` (sharing_map.h:1036-1060)
followed by the leaf write of `replace`/`update`: descend along the hash
chunks and overwrite the leaf value in the container reached. -/
def replace_children : List (Nat × innert) → Nat → Nat → Nat → Nat →
    List (Nat × innert)
  | [], _, _, _, _ => []
  | (b, c) :: rest, bit, key, k, v =>
    if b = bit then
      match c with
      | .container ci ll => (b, .container ci (set_leaf_value ll k v)) :: rest
      | .internal ci mc =>
        (b, .internal ci (replace_children mc (key &&& mask) (key >>> chunk) k v))
          :: rest
      | .empty => (b, .empty) :: rest
    else (b, c) :: replace_children rest bit key k v

/-- Root step of the leaf overwrite. -/
def replace_node (n : innert) (key k v : Nat) : innert :=
  match n with
  | .internal i m =>
    .internal i (replace_children m (key &&& mask) (key >>> chunk) k v)
  | c => c

/-- `replace` (sharing_map.h:1279-1293).  `none` models the fatal
invariant-violation channel: the `PRECONDITION` that the key exists, and the
`INVARIANT(!value_equalt()(old, m))` that, with `fail_if_equal` set, rejects
replacing a value by an equal one. -/
def replace (fail_if_equal : Bool) (M : sharing_mapt) (k v : Nat) :
    Option sharing_mapt :=
  match get_leaf_node hash M k with
  | none => none
  | some l =>
    if value_equalt fail_if_equal l.value v then none
    else some ⟨replace_node M.map (hash k) k v, M.num⟩

/-- `update` (sharing_map.h:1295-1312): snapshot the old value in a
`value_comparatort`, apply the mutator in place, then check
`INVARIANT(!comparator(new))`; with `fail_if_equal` unset the comparator is
the no-op one. -/
def update (fail_if_equal : Bool) (M : sharing_mapt) (k : Nat)
    (mutator : Nat → Nat) : Option sharing_mapt :=
  match get_leaf_node hash M k with
  | none => none
  | some l =>
    if value_equalt fail_if_equal l.value (mutator l.value) then none
    else some ⟨replace_node M.map (hash k) k (mutator l.value), M.num⟩

end WithHash

/-! ## Views (sharing_map.h:616-657 `iterate`, 801-813 `get_view`) -/

/-- Sum of the sizes of the first components of a traversal stack. -/
def stack1_size (st : List innert) : Nat := (st.map sizeN).sum

/-- The stack-based `iterate` (sharing_map.h:616-657): pop a node; push the
children of an internal node in ascending chunk order (so they are popped in
descending order); emit the leaves of a container in list order. -/
def iterate_loop : List innert → List (Nat × Nat)
  | [] => []
  | n :: rest =>
    match n with
    | .internal _ m => iterate_loop ((m.map Prod.snd).reverse ++ rest)
    | .container _ ll => (ll.map fun l => (l.key, l.value)) ++ iterate_loop rest
    | .empty => iterate_loop rest
termination_by st => stack1_size st
decreasing_by
  · have hb : stack1_size ((m.map Prod.snd).reverse) = sizeL m := by
      induction m with
      | nil => rfl
      | cons hd tl ih =>
        simp only [List.map_cons, List.reverse_cons, stack1_size, List.map_append,
          List.sum_append, List.map_reverse, List.sum_reverse] at *
        simp only [sizeL, List.map_nil, List.sum_nil, List.sum_cons] at *
        omega
    simp only [stack1_size, List.map_append, List.sum_append, List.map_cons,
      List.sum_cons, sizeN] at *
    omega
  · simp only [stack1_size, List.map_cons, List.sum_cons, sizeN]
    omega
  · simp only [stack1_size, List.map_cons, List.sum_cons, sizeN]
    omega

/-- `get_view` (sharing_map.h:801-813), as the sequence of produced items:
nothing on an empty map, otherwise the `iterate` traversal from the root. -/
def get_view (M : sharing_mapt) : List (Nat × Nat) :=
  if M.num == 0 then [] else iterate_loop [M.map]

/-- `get_view` together with its out-parameter protocol
(sharing_map.h:801-813): the caller passes the current contents of the
output vector; `SM_ASSERT(view.empty())` is compiled in only when the
`SM_INTERNAL_CHECKS` build flag (first parameter) is set (sharing_map.h:35-39)
and is modelled as `none` (the fatal invariant-violation channel); otherwise
the items are appended by `push_back` after the existing contents. -/
def get_view_checked (sm_internal_checks : Bool) (M : sharing_mapt)
    (view : List (Nat × Nat)) : Option (List (Nat × Nat)) :=
  if sm_internal_checks && !view.isEmpty then none
  else some (view ++ get_view M)

/-! ## Delta view (sharing_map.h:369-402, 815-1034) -/

/-- `delta_view_itemt` (sharing_map.h:369-402): key, value in the queried
map, and the value in the other map when the key is in both. -/
structure delta_view_itemt where
  k : Nat
  m : Nat
  other_m : Option Nat
deriving Repr, DecidableEq

/-- `gather_all` (sharing_map.h:815-823): every leaf below a node, as
delta items present only in the first map. -/
def gather_all (n : innert) : List delta_view_itemt :=
  (iterate_loop [n]).map fun p => ⟨p.1, p.2, none⟩

/-- Scan of the container found while descending the second map
(sharing_map.h:867-881): stop silently at a shared leaf, report a pair at an
equal key; after the loop the item is pushed without consulting
`only_common`. -/
def scan_container (l1 : leaft) : List leaft → List delta_view_itemt
  | [] => [⟨l1.key, l1.value, none⟩]
  | l2 :: rest =>
    if leaf_shares_with l1 l2 then []
    else if l1.key == l2.key then [⟨l1.key, l1.value, some l2.value⟩]
    else scan_container l1 rest

section WithHash2

variable (hash : Nat → Nat)

mutual
/-- The `while(true)` descent of `add_item_if_not_shared`
(sharing_map.h:839-886): follow the remaining hash chunks of the single
`l1` leaf through the second map; a missing child means the key is only in
the first map (reported unless `only_common`); a container is scanned. -/
def add_item_go (only_common : Bool) (cont : innert) (l1 : leaft) :
    innert → Nat → List delta_view_itemt
  | .internal _ m, key =>
    add_item_childL only_common cont l1 m (key &&& mask) (key >>> chunk)
  | _, _ =>
    if only_common then [] else [⟨l1.key, l1.value, none⟩]

def add_item_childL (only_common : Bool) (cont : innert) (l1 : leaft) :
    List (Nat × innert) → Nat → Nat → List delta_view_itemt
  | [], _, _ => if only_common then [] else [⟨l1.key, l1.value, none⟩]
  | (b, c) :: rest, bit, key =>
    if b = bit then
      match c with
      | .container ci ll =>
        if shares_with cont (.container ci ll) then []
        else scan_container l1 ll
      | c2 => add_item_go only_common cont l1 c2 key
    else add_item_childL only_common cont l1 rest bit key
end

/-- `add_item_if_not_shared` (sharing_map.h:825-886): take the single leaf of
the container of the first map and chase its hash, shifted by
`level * chunk`, through the inner node of the second map. -/
def add_item_if_not_shared (only_common : Bool) (cont inner : innert)
    (level : Nat) : List delta_view_itemt :=
  match cont with
  | .container ci (l1 :: lrest) =>
    add_item_go only_common (.container ci (l1 :: lrest)) l1 inner
      (hash l1.key >>> (level * chunk))
  | _ => []

/-- Sum of the sizes of the first components of a delta-view stack. -/
def stack_size (st : List (innert × innert × Nat)) : Nat :=
  (st.map fun t => sizeN t.1).sum

/-- Stack items pushed by the internal-vs-container case
(sharing_map.h:942-967): each child of the first node that does not share
with the container, paired with the container at the sentinel level, in
child order. -/
def push_pairs_ic (ip2 : innert) : List (Nat × innert) → List (innert × innert × Nat)
  | [] => []
  | (_, c) :: rest =>
    (if shares_with c ip2 then [] else [(c, ip2, dummy_level)]) ++
      push_pairs_ic ip2 rest

/-- Stack items pushed by the internal-vs-internal case
(sharing_map.h:969-995): each child of the first node whose chunk also has a
child in the second node, with which it does not share, in child order. -/
def push_pairs_ii (m2 : List (Nat × innert)) (level : Nat) :
    List (Nat × innert) → List (innert × innert × Nat)
  | [] => []
  | (b, c) :: rest =>
    (match lookup_child m2 b with
      | none => []
      | some p => if shares_with c p then [] else [(c, p, level + 1)]) ++
      push_pairs_ii m2 level rest

/-- Items emitted immediately by the internal-vs-internal case
(sharing_map.h:978-986): all leaves below the children of the first node
whose chunk is missing from the second node, unless `only_common`. -/
def gather_missing (only_common : Bool) (m2 : List (Nat × innert)) :
    List (Nat × innert) → List delta_view_itemt
  | [] => []
  | (b, c) :: rest =>
    (match lookup_child m2 b with
      | none => if only_common then [] else gather_all c
      | some _ => []) ++
      gather_missing only_common m2 rest

/-- Items emitted by the container-vs-container case
(sharing_map.h:1009-1031): for each leaf of the first container, the pair of
values when the second container has the key on a non-shared leaf, and an
first-map-only item when it lacks the key (unless `only_common`). -/
def compare_containers (only_common : Bool) (ip2 : innert) :
    List leaft → List delta_view_itemt
  | [] => []
  | l1 :: rest =>
    (match find_leaf ip2 l1.key with
      | some p =>
        if leaf_shares_with l1 p then []
        else [⟨l1.key, l1.value, some p.value⟩]
      | none =>
        if only_common then [] else [⟨l1.key, l1.value, none⟩]) ++
      compare_containers only_common ip2 rest

/-- The lock-step DFS of `get_delta_view` (sharing_map.h:927-1033) over the
explicit work stack (children are pushed in ascending order, hence popped in
descending order).  Four cases by node kinds: internal/container pairs each
non-shared child of the first node with the container (at the sentinel
level); internal/internal gathers the subtrees missing from the second map
(when `!only_common`) and pushes the non-shared common children;
container/internal delegates to `add_item_if_not_shared`;
container/container compares the leaves by key. -/
def get_delta_view_loop (only_common : Bool) :
    List (innert × innert × Nat) → List delta_view_itemt
  | [] => []
  | (ip1, ip2, level) :: rest =>
    match ip1, ip2 with
    | .internal _ m1, .container i2 ll2 =>
      get_delta_view_loop only_common
        ((push_pairs_ic (.container i2 ll2) m1).reverse ++ rest)
    | .internal _ m1, .internal _ m2 =>
      gather_missing only_common m2 m1 ++
      get_delta_view_loop only_common
        ((push_pairs_ii m2 level m1).reverse ++ rest)
    | .container i1 ll1, .internal i2 m2 =>
      add_item_if_not_shared hash only_common (.container i1 ll1)
        (.internal i2 m2) level ++
      get_delta_view_loop only_common rest
    | .container _ ll1, .container i2 ll2 =>
      compare_containers only_common (.container i2 ll2) ll1 ++
      get_delta_view_loop only_common rest
    | _, _ => get_delta_view_loop only_common rest
termination_by st => stack_size st
decreasing_by
  · have hb : ∀ m : List (Nat × innert),
        stack_size (push_pairs_ic (innert.container i2 ll2) m) ≤ sizeL m := by
      intro m
      induction m with
      | nil => simp [push_pairs_ic, stack_size, sizeL]
      | cons hd tl ih =>
        obtain ⟨b, c⟩ := hd
        have hp : (0:Nat) < sizeN c := by cases c <;> simp [sizeN]
        by_cases hs : shares_with c (innert.container i2 ll2) = true <;>
          simp only [push_pairs_ic, hs, if_true, if_false, Bool.false_eq_true,
            if_neg, List.nil_append, List.singleton_append, stack_size, sizeL,
            List.map_cons, List.sum_cons] at * <;> omega
    have hb2 := hb m1
    simp only [stack_size, List.map_append, List.sum_append, List.map_reverse,
      List.sum_reverse, List.map_cons, List.sum_cons, sizeN] at *
    omega
  · have hb : ∀ m : List (Nat × innert),
        stack_size (push_pairs_ii m2 level m) ≤ sizeL m := by
      intro m
      induction m with
      | nil => simp [push_pairs_ii, stack_size, sizeL]
      | cons hd tl ih =>
        obtain ⟨b, c⟩ := hd
        have hp : (0:Nat) < sizeN c := by cases c <;> simp [sizeN]
        simp only [push_pairs_ii, sizeL]
        cases hl : lookup_child m2 b with
        | none =>
          simp only [stack_size, List.nil_append, List.map_cons, List.sum_cons] at *
          omega
        | some p =>
          by_cases hs : shares_with c p = true <;>
            simp only [hs, if_true, if_false, Bool.false_eq_true, if_neg,
              List.nil_append, List.singleton_append, stack_size, List.map_cons,
              List.sum_cons] at * <;> omega
    have hb2 := hb m1
    simp only [stack_size, List.map_append, List.sum_append, List.map_reverse,
      List.sum_reverse, List.map_cons, List.sum_cons, sizeN] at *
    omega
  · simp only [stack_size, List.map_cons, List.sum_cons, sizeN]
    omega
  · simp only [stack_size, List.map_cons, List.sum_cons, sizeN]
    omega
  · simp only [stack_size, List.map_cons, List.sum_cons]
    have hp : ∀ n : innert, 0 < sizeN n := fun n => by cases n <;> simp [sizeN]
    exact Nat.lt_add_of_pos_left (hp _)

/-- `get_delta_view` (sharing_map.h:888-1034), as the sequence of produced
items: nothing when the first map is empty; everything below the first root
(unless `only_common`) when the second map is empty; nothing when the two
roots share; otherwise the lock-step DFS from the pair of roots at level 0. -/
def get_delta_view (A B : sharing_mapt) (only_common : Bool) :
    List delta_view_itemt :=
  if A.num == 0 then []
  else if B.num == 0 then
    if only_common then [] else gather_all A.map
  else if shares_with A.map B.map then []
  else get_delta_view_loop hash only_common [(A.map, B.map, 0)]

/-- `get_delta_view` together with its out-parameter protocol
(sharing_map.h:894): `SM_ASSERT(delta_view.empty())` is compiled in only
when `SM_INTERNAL_CHECKS` (first parameter) is set, and the items are
appended after the existing contents of the output vector. -/
def get_delta_view_checked (sm_internal_checks : Bool) (A B : sharing_mapt)
    (delta_view : List delta_view_itemt) (only_common : Bool) :
    Option (List delta_view_itemt) :=
  if sm_internal_checks && !delta_view.isEmpty then none
  else some (delta_view ++ get_delta_view hash A B only_common)

end WithHash2

/-! ## Well-formedness

The structural invariants of the map (spec section 3, I1-I6) that the
theorems below rely on, as an executable predicate: the child list of an
internal node is ordered by chunk (the `std::map` ordering); stored children
are neither empty nodes nor childless internal nodes (I1); containers are
non-empty (I2), singular above the deepest level (I3), and hold pairwise
distinct keys (I4); at the handle, the root is never a container and the
element count is the number of reachable leaves (I6). -/

/-- Strict ordering of the chunk keys of a child list. -/
def sortedA : List (Nat × innert) → Bool
  | (b1, _) :: (b2, c2) :: rest => decide (b1 < b2) && sortedA ((b2, c2) :: rest)
  | _ => true

/-- Pairwise distinctness of the keys of a container. -/
def distinct_keys : List Nat → Bool
  | [] => true
  | k :: rest => !rest.contains k && distinct_keys rest

/-- A stored child is not degenerate: internal nodes have children (I1). -/
def non_degenerate : innert → Bool
  | .internal _ [] => false
  | _ => true

mutual
def wfNode : innert → Nat → Bool
  | .empty, _ => true
  | .container _ ll, level =>
    !ll.isEmpty && (decide (levels ≤ level) || is_singular ll) &&
      distinct_keys (ll.map leaft.key)
  | .internal _ m, level => sortedA m && wfChildren m level

def wfChildren : List (Nat × innert) → Nat → Bool
  | [], _ => true
  | (_, c) :: rest, level =>
    !is_empty_node c && non_degenerate c && wfNode c (level + 1) &&
      wfChildren rest level
end

/-- Well-formedness of a map handle. -/
def wfMap (M : sharing_mapt) : Bool :=
  !is_container M.map && wfNode M.map 0 &&
    (M.num == (entriesOf M.map).length)

/-! ## Operation sequences (for the size bookkeeping property) -/

/-- A mutation: an insertion or an erasure. -/
inductive smop where
  | ins : Nat → Nat → smop
  | del : Nat → smop
deriving Repr, DecidableEq

section WithHash3

variable (hash : Nat → Nat)

/-- Apply one mutation. -/
def apply_op (M : sharing_mapt) : smop → sharing_mapt
  | .ins k v => insert hash M k v
  | .del k => erase hash M k

/-- Run a sequence of mutations. -/
def run_ops (M : sharing_mapt) : List smop → sharing_mapt
  | [] => M
  | o :: rest => run_ops (apply_op hash M o) rest

/-- Every mutation respects its precondition: keys are inserted only while
absent and erased only while present. -/
def valid_ops (M : sharing_mapt) : List smop → Prop
  | [] => True
  | .ins k v :: rest =>
    has_key hash M k = false ∧ valid_ops (insert hash M k v) rest
  | .del k :: rest =>
    has_key hash M k = true ∧ valid_ops (erase hash M k) rest

end WithHash3

/-- The set of keys inserted and not subsequently erased. -/
def live_keys : Finset Nat → List smop → Finset Nat
  | s, [] => s
  | s, .ins k _ :: rest => live_keys (Insert.insert k s) rest
  | s, .del k :: rest => live_keys (s.erase k) rest

/-! ## Derived observers (used to state the lemmas level by level) -/

/-- The hash of `k` shifted right by `level` chunks: the part of the hash
that steers the descent below depth `level`. -/
def key_suffix (hash : Nat → Nat) (k level : Nat) : Nat :=
  hash k >>> (chunk * level)

/-- Value found for `k` below a node, following the remaining hash `key`:
the composition of the `get_container_node` descent with `find_leaf`. -/
def find_value_in (n : innert) (key k : Nat) : Option Nat :=
  match get_container_loop n key with
  | none => none
  | some c => (find_leaf c k).map leaft.value

/-- Value found for `k` in a child list, following the remaining hash
`key`. -/
def find_value_inL (m : List (Nat × innert)) (key k : Nat) : Option Nat :=
  match get_container_childL m (key &&& mask) (key >>> chunk) with
  | none => none
  | some c => (find_leaf c k).map leaft.value

/-- Value found for `k` in a child slot: a container slot is scanned
directly, any other slot is descended into with the remaining hash `key`
(already shifted past the slot's own chunk). -/
def find_value_slot (c : innert) (key k : Nat) : Option Nat :=
  match c with
  | .container i ll => (find_leaf (.container i ll) k).map leaft.value
  | c2 => find_value_in c2 key k

/-! ## Concrete instances

Hash functions and map values used to instantiate the theorems below.  The
identity tags of `cexA` and `cexB` are pairwise distinct: the two maps model
two `sharing_mapt` objects built independently (by separate `insert` calls),
which therefore share no allocation. -/

/-- The identity hash. -/
def hash_id : Nat → Nat := fun k => k

/-- A constant (pathologically colliding) hash. -/
def hash_const : Nat → Nat := fun _ => 0

/-- A map holding exactly the pair `(64, 10)`: under `hash_id` the key 64
descends by chunks 0,0,1,... -/
def cexA : sharing_mapt :=
  ⟨.internal 1 [(0, .container 2 [⟨3, 64, 10⟩])], 1⟩

/-- A map holding the pairs `(128, 20)` and `(8, 30)`: under `hash_id` both
keys have low chunk 0 and diverge at depth 1 (chunks 0 and 1). -/
def cexB : sharing_mapt :=
  ⟨.internal 4 [(0, .internal 5
      [(0, .container 6 [⟨7, 128, 20⟩]), (1, .container 8 [⟨9, 8, 30⟩])])], 2⟩

/-! ## Arithmetic of the configuration constants -/

theorem mask_eq : mask = 7 := by decide

theorem levels_eq : levels = 10 := by decide

theorem land_mask (n : Nat) : n &&& mask = n % 8 := by
  rw [mask_eq]
  apply Nat.eq_of_testBit_eq
  intro i
  rw [Nat.testBit_and]
  rw [show (8 : Nat) = 2 ^ 3 by norm_num, Nat.testBit_mod_two_pow]
  rw [show (7 : Nat) = 2 ^ 3 - 1 by norm_num, Nat.testBit_two_pow_sub_one]
  rw [Bool.and_comm]

theorem shiftr_chunk (n : Nat) : n >>> chunk = n / 8 := by
  rw [Nat.shiftRight_eq_div_pow]
  norm_num [chunk]

theorem key_suffix_zero (h : Nat → Nat) (k : Nat) : key_suffix h k 0 = h k := by
  simp [key_suffix]

theorem key_suffix_succ (h : Nat → Nat) (k j : Nat) :
    key_suffix h k (j + 1) = key_suffix h k j >>> chunk := by
  simp only [key_suffix, Nat.mul_succ, Nat.shiftRight_add]

/-! ## Size facts -/

theorem sizeN_pos (n : innert) : 0 < sizeN n := by
  cases n <;> simp [sizeN]

theorem sizeL_cons (b : Nat) (c : innert) (rest : List (Nat × innert)) :
    sizeL ((b, c) :: rest) = sizeN c + sizeL rest := rfl

theorem sizeL_internal (ci : Nat) (mc : List (Nat × innert)) :
    sizeL mc < sizeN (.internal ci mc) := by
  simp [sizeN]

/-! ## Per-constructor equations for the descent -/

theorem gcl_internal (i : Nat) (m : List (Nat × innert)) (key : Nat) :
    get_container_loop (.internal i m) key =
      get_container_childL m (key &&& mask) (key >>> chunk) := rfl

theorem gcl_empty (key : Nat) : get_container_loop .empty key = none := rfl

theorem gcl_cont (i : Nat) (ll : List leaft) (key : Nat) :
    get_container_loop (.container i ll) key = none := rfl

theorem gclL_nil (bit key : Nat) : get_container_childL [] bit key = none := rfl

theorem gclL_cons_cont (b i : Nat) (ll : List leaft)
    (rest : List (Nat × innert)) (bit key : Nat) :
    get_container_childL ((b, .container i ll) :: rest) bit key =
      if b = bit then some (.container i ll)
      else get_container_childL rest bit key := rfl

theorem gclL_cons_int (b ci : Nat) (mc rest : List (Nat × innert))
    (bit key : Nat) :
    get_container_childL ((b, .internal ci mc) :: rest) bit key =
      if b = bit then get_container_childL mc (key &&& mask) (key >>> chunk)
      else get_container_childL rest bit key := rfl

theorem gclL_cons_empty (b : Nat) (rest : List (Nat × innert)) (bit key : Nat) :
    get_container_childL ((b, .empty) :: rest) bit key =
      if b = bit then none else get_container_childL rest bit key := rfl

theorem gclL_cons_ne (b : Nat) (c : innert) (rest : List (Nat × innert))
    (bit key : Nat) (hne : b ≠ bit) :
    get_container_childL ((b, c) :: rest) bit key =
      get_container_childL rest bit key := by
  cases c <;> simp [gclL_cons_cont, gclL_cons_int, gclL_cons_empty, hne]

/-! ## Observer unfolding -/

theorem fv_internal (i : Nat) (m : List (Nat × innert)) (key k : Nat) :
    find_value_in (.internal i m) key k = find_value_inL m key k := rfl

theorem fv_empty (key k : Nat) : find_value_in .empty key k = none := rfl

theorem fv_container (i : Nat) (ll : List leaft) (key k : Nat) :
    find_value_in (.container i ll) key k = none := rfl

theorem fvL_nil (key k : Nat) : find_value_inL [] key k = none := rfl

theorem fv_slot_container (i : Nat) (ll : List leaft) (key k : Nat) :
    find_value_slot (.container i ll) key k =
      (List.find? (fun l => l.key == k) ll).map leaft.value := rfl

theorem fv_slot_internal (i : Nat) (m : List (Nat × innert)) (key k : Nat) :
    find_value_slot (.internal i m) key k = find_value_inL m key k := rfl

theorem fv_slot_empty (key k : Nat) : find_value_slot .empty key k = none := rfl

theorem fvL_cons_ne (b : Nat) (c : innert) (rest : List (Nat × innert))
    (key k : Nat) (hne : b ≠ key &&& mask) :
    find_value_inL ((b, c) :: rest) key k = find_value_inL rest key k := by
  unfold find_value_inL
  rw [gclL_cons_ne b c rest (key &&& mask) (key >>> chunk) hne]

theorem fvL_cons_eq (b : Nat) (c : innert) (rest : List (Nat × innert))
    (key k : Nat) (heq : b = key &&& mask) :
    find_value_inL ((b, c) :: rest) key k = find_value_slot c (key >>> chunk) k := by
  cases c with
  | empty =>
    unfold find_value_inL
    rw [gclL_cons_empty, if_pos heq, fv_slot_empty]
  | internal ci mc =>
    unfold find_value_inL
    rw [gclL_cons_int, if_pos heq, fv_slot_internal]
    rfl
  | container ci ll =>
    unfold find_value_inL
    rw [gclL_cons_cont, if_pos heq, fv_slot_container]
    rfl

/-! ## Entries unfolding -/

theorem entriesOf_empty : entriesOf .empty = [] := rfl

theorem entriesOf_internal (i : Nat) (m : List (Nat × innert)) :
    entriesOf (.internal i m) = entriesOfL m := rfl

theorem entriesOf_container (i : Nat) (ll : List leaft) :
    entriesOf (.container i ll) = ll.map fun l => (l.key, l.value) := rfl

theorem entriesOfL_nil : entriesOfL [] = [] := rfl

theorem entriesOfL_cons (b : Nat) (c : innert) (rest : List (Nat × innert)) :
    entriesOfL ((b, c) :: rest) = entriesOfL rest ++ entriesOf c := rfl

/-! ## Soundness of the descent: every value found is a stored entry -/

theorem fv_sound :
    ∀ sz (m : List (Nat × innert)) (key k v : Nat), sizeL m ≤ sz →
      find_value_inL m key k = some v → (k, v) ∈ entriesOfL m := by
  intro sz
  induction sz with
  | zero =>
    intro m key k v hsz hf
    cases m with
    | nil => simp [find_value_inL, get_container_childL] at hf
    | cons hd tl =>
      obtain ⟨b, c⟩ := hd
      have := sizeN_pos c
      simp [sizeL_cons] at hsz
      omega
  | succ sz ih =>
    intro m key k v hsz hf
    induction m with
    | nil => simp [find_value_inL, get_container_childL] at hf
    | cons hd tl ih2 =>
      obtain ⟨b, c⟩ := hd
      rw [sizeL_cons] at hsz
      have hcpos := sizeN_pos c
      by_cases hb : b = key &&& mask
      · rw [fvL_cons_eq b c tl key k hb] at hf
        rw [entriesOfL_cons]
        cases c with
        | empty => simp [fv_slot_empty] at hf
        | container ci ll =>
          rw [fv_slot_container] at hf
          cases hfl : List.find? (fun l => l.key == k) ll with
          | none => rw [hfl] at hf; simp at hf
          | some l =>
            rw [hfl] at hf
            simp only [Option.map_some'] at hf
            have hmem := List.mem_of_find?_eq_some hfl
            have hkey2 : l.key = k := by
              have h1 := List.find?_some hfl
              simpa using h1
            have hv := Option.some.inj hf
            apply List.mem_append_right
            rw [entriesOf_container]
            apply List.mem_map.mpr
            exact ⟨l, hmem, by simp [hkey2, hv]⟩
        | internal ci mc =>
          rw [fv_slot_internal] at hf
          have hszc : sizeL mc ≤ sz := by
            have := sizeL_internal ci mc
            omega
          have := ih mc (key >>> chunk) k v hszc hf
          apply List.mem_append_right
          rw [entriesOf_internal]
          exact this
      · rw [fvL_cons_ne b c tl key k hb] at hf
        rw [entriesOfL_cons]
        apply List.mem_append_left
        exact ih2 (by omega) hf

theorem fv_sound_node (n : innert) (key k v : Nat)
    (hf : find_value_in n key k = some v) : (k, v) ∈ entriesOf n := by
  cases n with
  | empty => simp [fv_empty] at hf
  | container i ll => simp [fv_container] at hf
  | internal i m =>
    rw [fv_internal] at hf
    rw [entriesOf_internal]
    exact fv_sound (sizeL m) m key k v le_rfl hf

theorem fvL_none_of_entries_nil (m : List (Nat × innert)) (key k : Nat)
    (he : entriesOfL m = []) : find_value_inL m key k = none := by
  cases hf : find_value_inL m key k with
  | none => rfl
  | some v =>
    have := fv_sound (sizeL m) m key k v le_rfl hf
    rw [he] at this
    simp at this

/-! ## Sortedness of child lists -/

theorem sortedA_nil : sortedA [] = true := rfl

theorem sortedA_one (b : Nat) (c : innert) : sortedA [(b, c)] = true := rfl

theorem sortedA_cons2 (b1 b2 : Nat) (c1 c2 : innert)
    (rest : List (Nat × innert)) :
    sortedA ((b1, c1) :: (b2, c2) :: rest) =
      (decide (b1 < b2) && sortedA ((b2, c2) :: rest)) := rfl

theorem sortedA_tail (b : Nat) (c : innert) (rest : List (Nat × innert))
    (hs : sortedA ((b, c) :: rest) = true) : sortedA rest = true := by
  cases rest with
  | nil => rfl
  | cons hd tl =>
    obtain ⟨b2, c2⟩ := hd
    rw [sortedA_cons2, Bool.and_eq_true] at hs
    exact hs.2

theorem sortedA_head_lt (b : Nat) (c : innert) (rest : List (Nat × innert))
    (hs : sortedA ((b, c) :: rest) = true) : ∀ p ∈ rest, b < p.1 := by
  induction rest generalizing b c with
  | nil => intro p hp; simp at hp
  | cons hd tl ih =>
    obtain ⟨b2, c2⟩ := hd
    rw [sortedA_cons2, Bool.and_eq_true, decide_eq_true_eq] at hs
    intro p hp
    rcases List.mem_cons.mp hp with h | h
    · rw [h]; exact hs.1
    · exact lt_trans hs.1 (ih b2 c2 hs.2 p h)

theorem gclL_none_of_all_ne (m : List (Nat × innert)) (bit key : Nat)
    (hne : ∀ p ∈ m, p.1 ≠ bit) : get_container_childL m bit key = none := by
  induction m with
  | nil => exact gclL_nil bit key
  | cons hd tl ih =>
    obtain ⟨b, c⟩ := hd
    rw [gclL_cons_ne b c tl bit key (hne (b, c) (by simp))]
    exact ih fun p hp => hne p (List.mem_cons_of_mem _ hp)

theorem fvL_none_of_all_ne (m : List (Nat × innert)) (key k : Nat)
    (hne : ∀ p ∈ m, p.1 ≠ key &&& mask) : find_value_inL m key k = none := by
  unfold find_value_inL
  rw [gclL_none_of_all_ne m (key &&& mask) (key >>> chunk) hne]

/-! ## Leaf lists: find?, remove_leaf, distinctness -/

theorem contains_false_forall (ks : List Nat) (x : Nat)
    (h : ks.contains x = false) : ∀ y ∈ ks, y ≠ x := by
  intro y hy he
  have hc : ks.contains x = true := by
    rw [List.contains_eq_any_beq]
    exact List.any_eq_true.mpr ⟨y, hy, by simp [he]⟩
  rw [hc] at h
  exact absurd h (by simp)

theorem find?_leaf_cons (l : leaft) (ll : List leaft) (k : Nat) :
    List.find? (fun x => x.key == k) (l :: ll) =
      if l.key = k then some l else List.find? (fun x => x.key == k) ll := by
  by_cases h : l.key = k
  · have hb : (l.key == k) = true := by simp [h]
    simp [List.find?, hb, h]
  · have hb : (l.key == k) = false := by simp [h]
    simp [List.find?, hb, h]

theorem remove_leaf_cons (l : leaft) (ll : List leaft) (k : Nat) :
    remove_leaf (l :: ll) k =
      if l.key = k then ll else l :: remove_leaf ll k := by
  by_cases h : l.key = k <;> simp [remove_leaf, h]

theorem find?_remove_leaf_other (ll : List leaft) (k k2 : Nat) (hne : k2 ≠ k) :
    List.find? (fun x => x.key == k2) (remove_leaf ll k) =
      List.find? (fun x => x.key == k2) ll := by
  induction ll with
  | nil => rfl
  | cons l rest ih =>
    rw [remove_leaf_cons]
    by_cases h : l.key = k
    · rw [if_pos h, find?_leaf_cons, if_neg (by rw [h]; exact fun he => hne he.symm)]
    · rw [if_neg h, find?_leaf_cons, find?_leaf_cons, ih]

theorem mem_remove_leaf (ll : List leaft) (k : Nat) (l : leaft)
    (hm : l ∈ remove_leaf ll k) : l ∈ ll := by
  induction ll with
  | nil => simpa [remove_leaf] using hm
  | cons hd rest ih =>
    rw [remove_leaf_cons] at hm
    by_cases h : hd.key = k
    · rw [if_pos h] at hm
      exact List.mem_cons_of_mem _ hm
    · rw [if_neg h] at hm
      rcases List.mem_cons.mp hm with h2 | h2
      · rw [h2]; simp
      · exact List.mem_cons_of_mem _ (ih h2)

theorem distinct_cons (x : Nat) (ks : List Nat) :
    distinct_keys (x :: ks) = (!ks.contains x && distinct_keys ks) := rfl

theorem find?_remove_leaf_self (ll : List leaft) (k : Nat)
    (hd : distinct_keys (ll.map leaft.key) = true) :
    List.find? (fun x => x.key == k) (remove_leaf ll k) = none := by
  induction ll with
  | nil => rfl
  | cons l rest ih =>
    rw [List.map_cons, distinct_cons, Bool.and_eq_true] at hd
    have hcon : (rest.map leaft.key).contains l.key = false := by
      have := hd.1
      rw [Bool.not_eq_true'] at this
      exact this
    rw [remove_leaf_cons]
    by_cases h : l.key = k
    · rw [if_pos h]
      apply List.find?_eq_none.mpr
      intro x hx hbeq
      have hxk : x.key = k := by simpa using hbeq
      have hmem : x.key ∈ rest.map leaft.key := List.mem_map_of_mem leaft.key hx
      exact contains_false_forall _ _ hcon x.key hmem (by rw [hxk, h])
    · rw [if_neg h, find?_leaf_cons, if_neg h]
      exact ih hd.2

theorem remove_leaf_len (ll : List leaft) (k : Nat)
    (hm : ∃ l ∈ ll, l.key = k) : (remove_leaf ll k).length + 1 = ll.length := by
  induction ll with
  | nil => simp at hm
  | cons l rest ih =>
    rw [remove_leaf_cons]
    by_cases h : l.key = k
    · rw [if_pos h]; simp
    · rw [if_neg h]
      obtain ⟨l2, hl2, hk2⟩ := hm
      rcases List.mem_cons.mp hl2 with h2 | h2
      · rw [h2] at hk2; exact absurd hk2 h
      · simp only [List.length_cons]
        rw [← ih ⟨l2, h2, hk2⟩]

theorem remove_leaf_len_ge (ll : List leaft) (k : Nat) :
    ll.length ≤ (remove_leaf ll k).length + 1 := by
  induction ll with
  | nil => simp
  | cons l rest ih =>
    rw [remove_leaf_cons]
    by_cases h : l.key = k
    · rw [if_pos h]; simp
    · rw [if_neg h]; simpa using ih

theorem distinct_remove_leaf (ll : List leaft) (k : Nat)
    (hd : distinct_keys (ll.map leaft.key) = true) :
    distinct_keys ((remove_leaf ll k).map leaft.key) = true := by
  induction ll with
  | nil => rfl
  | cons l rest ih =>
    rw [List.map_cons, distinct_cons, Bool.and_eq_true] at hd
    rw [remove_leaf_cons]
    by_cases h : l.key = k
    · rw [if_pos h]; exact hd.2
    · rw [if_neg h, List.map_cons, distinct_cons, Bool.and_eq_true]
      refine ⟨?_, ih hd.2⟩
      rw [Bool.not_eq_true']
      by_contra hc
      rw [Bool.not_eq_false, List.contains_eq_any_beq] at hc
      obtain ⟨x, hx, hbeq⟩ := List.any_eq_true.mp hc
      obtain ⟨l2, hl2, hkey⟩ := List.mem_map.mp hx
      have hxlk : l.key = x := by simpa using hbeq
      have h2 : l2 ∈ rest := mem_remove_leaf rest k l2 hl2
      have hcon : (rest.map leaft.key).contains l.key = false := by
        have := hd.1
        rw [Bool.not_eq_true'] at this
        exact this
      exact contains_false_forall _ _ hcon l2.key
        (List.mem_map_of_mem leaft.key h2) (by rw [hkey, ← hxlk])

/-! ## Well-formedness unfolding -/

theorem wfNode_empty (level : Nat) : wfNode .empty level = true := rfl

theorem wfNode_container (i level : Nat) (ll : List leaft) :
    wfNode (.container i ll) level =
      (!ll.isEmpty && (decide (levels ≤ level) || is_singular ll) &&
        distinct_keys (ll.map leaft.key)) := rfl

theorem wfNode_internal (i level : Nat) (m : List (Nat × innert)) :
    wfNode (.internal i m) level = (sortedA m && wfChildren m level) := rfl

theorem wfChildren_nil (level : Nat) : wfChildren [] level = true := rfl

theorem wfChildren_cons (b level : Nat) (c : innert)
    (rest : List (Nat × innert)) :
    wfChildren ((b, c) :: rest) level =
      (!is_empty_node c && non_degenerate c && wfNode c (level + 1) &&
        wfChildren rest level) := rfl

/-! ## Non-emptiness of entries under well-formedness -/

theorem entries_ne_nil :
    ∀ sz (c : innert) (level : Nat), sizeN c ≤ sz →
      is_empty_node c = false → non_degenerate c = true →
      wfNode c level = true → entriesOf c ≠ [] := by
  intro sz
  induction sz with
  | zero =>
    intro c level hsz
    have := sizeN_pos c
    omega
  | succ sz ih =>
    intro c level hsz hne hndeg hwf
    cases c with
    | empty => simp [is_empty_node] at hne
    | container ci ll =>
      rw [wfNode_container, Bool.and_eq_true, Bool.and_eq_true] at hwf
      have hll : ll ≠ [] := by
        have := hwf.1.1
        cases ll <;> simp_all
      rw [entriesOf_container]
      simpa using hll
    | internal ci mc =>
      cases mc with
      | nil => simp [non_degenerate] at hndeg
      | cons hd tl =>
        obtain ⟨b2, c2⟩ := hd
        rw [wfNode_internal, Bool.and_eq_true] at hwf
        have hwc := hwf.2
        rw [wfChildren_cons, Bool.and_eq_true, Bool.and_eq_true,
          Bool.and_eq_true] at hwc
        have hszc : sizeN c2 ≤ sz := by
          have h1 : sizeN (innert.internal ci ((b2, c2) :: tl)) =
              1 + (sizeN c2 + sizeL tl) := rfl
          omega
        have hec : is_empty_node c2 = false := by
          have := hwc.1.1.1
          rwa [Bool.not_eq_true'] at this
        have h2 := ih c2 (level + 1) hszc hec hwc.1.1.2 hwc.1.2
        rw [entriesOf_internal, entriesOfL_cons]
        intro hcon
        rw [List.append_eq_nil] at hcon
        exact h2 hcon.2

/-! ## The stack-based iterate and the entries of the root -/

theorem stack1_append (a b : List innert) :
    stack1_size (a ++ b) = stack1_size a + stack1_size b := by
  simp [stack1_size]

theorem stack1_reverse (a : List innert) :
    stack1_size a.reverse = stack1_size a := by
  simp only [stack1_size, List.map_reverse]
  exact List.sum_reverse _

theorem stack1_map_snd (m : List (Nat × innert)) :
    stack1_size (m.map Prod.snd) = sizeL m := by
  induction m with
  | nil => rfl
  | cons hd tl ih =>
    obtain ⟨b, c⟩ := hd
    simp only [List.map_cons, stack1_size, List.sum_cons] at *
    rw [sizeL_cons, ih]

theorem stack1_cons (n : innert) (rest : List innert) :
    stack1_size (n :: rest) = sizeN n + stack1_size rest := by
  simp [stack1_size]

theorem foldr_entries_rev (m : List (Nat × innert)) (X : List (Nat × Nat)) :
    ((m.map Prod.snd).reverse).foldr (fun n acc => entriesOf n ++ acc) X =
      entriesOfL m ++ X := by
  induction m generalizing X with
  | nil => simp [entriesOfL_nil]
  | cons hd tl ih =>
    obtain ⟨b, c⟩ := hd
    rw [List.map_cons, List.reverse_cons, List.foldr_append, entriesOfL_cons,
      List.append_assoc]
    rw [ih]
    rfl

theorem iterate_loop_foldr :
    ∀ sz (st : List innert), stack1_size st ≤ sz →
      iterate_loop st = st.foldr (fun n acc => entriesOf n ++ acc) [] := by
  intro sz
  induction sz with
  | zero =>
    intro st hsz
    cases st with
    | nil => simp [iterate_loop]
    | cons n rest =>
      rw [stack1_cons] at hsz
      have := sizeN_pos n
      omega
  | succ sz ih =>
    intro st hsz
    cases st with
    | nil => simp [iterate_loop]
    | cons n rest =>
      rw [stack1_cons] at hsz
      cases n with
      | empty =>
        simp only [iterate_loop]
        rw [ih rest (by simp [sizeN] at hsz; omega)]
        simp [entriesOf_empty]
      | container ci ll =>
        simp only [iterate_loop]
        rw [ih rest (by simp [sizeN] at hsz; omega)]
        rw [List.foldr_cons, entriesOf_container]
      | internal ci m =>
        simp only [iterate_loop]
        have hm : stack1_size ((m.map Prod.snd).reverse ++ rest) ≤ sz := by
          rw [stack1_append, stack1_reverse, stack1_map_snd]
          have : sizeN (innert.internal ci m) = 1 + sizeL m := rfl
          omega
        rw [ih _ hm, List.foldr_append, List.foldr_cons, foldr_entries_rev]
        rfl

theorem iterate_single (n : innert) : iterate_loop [n] = entriesOf n := by
  rw [iterate_loop_foldr (stack1_size [n]) [n] le_rfl]
  simp

theorem wfMap_parts (M : sharing_mapt) (hwf : wfMap M = true) :
    is_container M.map = false ∧ wfNode M.map 0 = true ∧
      M.num = (entriesOf M.map).length := by
  unfold wfMap at hwf
  rw [Bool.and_eq_true, Bool.and_eq_true] at hwf
  refine ⟨?_, hwf.1.2, by simpa using hwf.2⟩
  have := hwf.1.1
  rw [Bool.not_eq_true'] at this
  exact this

theorem get_view_entries (M : sharing_mapt) (hwf : wfMap M = true) :
    get_view M = entriesOf M.map := by
  unfold get_view
  obtain ⟨-, -, hlen⟩ := wfMap_parts M hwf
  by_cases hz : M.num = 0
  · rw [if_pos (by simp [hz])]
    have : (entriesOf M.map).length = 0 := by omega
    exact (List.eq_nil_of_length_eq_zero this).symm
  · rw [if_neg (by simpa using hz), iterate_single]

/-! ## Equations for the migrate loop -/

theorem migrate_loop_diverge (level key keyE : Nat) (cc : innert) (k v : Nat)
    (hlt : level < levels) (hne : key &&& mask ≠ keyE &&& mask) :
    migrate_loop level key keyE cc k v =
      .internal 0
        (if key &&& mask < keyE &&& mask then
          [(key &&& mask, .container 0 [⟨0, k, v⟩]), (keyE &&& mask, cc)]
        else
          [(keyE &&& mask, cc), (key &&& mask, .container 0 [⟨0, k, v⟩])]) := by
  rw [migrate_loop]
  simp [hlt, hne]

theorem migrate_loop_same (level key keyE : Nat) (cc : innert) (k v : Nat)
    (hlt : level < levels) (heq : key &&& mask = keyE &&& mask) :
    migrate_loop level key keyE cc k v =
      .internal 0
        [(key &&& mask,
          migrate_loop (level + 1) (key >>> chunk) (keyE >>> chunk) cc k v)] := by
  rw [migrate_loop]
  simp [hlt, heq]

theorem migrate_loop_bottom (level key keyE : Nat) (cc : innert) (k v : Nat)
    (hge : ¬level < levels) :
    migrate_loop level key keyE cc k v =
      .container 0 (⟨0, k, v⟩ :: front_leaf cc) := by
  rw [migrate_loop]
  simp [hge]

/-! ## Behaviour of the migrated subtree -/

theorem migrate_loop_spec (h : Nat → Nat) :
    ∀ fuel j key keyE (ci : Nat) (l0 : leaft) (k v : Nat),
      levels - j ≤ fuel →
      key = key_suffix h k j → keyE = key_suffix h l0.key j → k ≠ l0.key →
      (∀ k', find_value_slot
          (migrate_loop j key keyE (.container ci [l0]) k v)
          (key_suffix h k' j) k' =
        if k' = k then some v
        else if k' = l0.key then some l0.value else none) ∧
      wfNode (migrate_loop j key keyE (.container ci [l0]) k v) j = true ∧
      is_empty_node (migrate_loop j key keyE (.container ci [l0]) k v) = false ∧
      non_degenerate (migrate_loop j key keyE (.container ci [l0]) k v) = true ∧
      (entriesOf (migrate_loop j key keyE (.container ci [l0]) k v)).length = 2 := by
  intro fuel
  induction fuel with
  | zero =>
    intro j key keyE ci l0 k v hfuel hk hE hkne
    have hge : ¬j < levels := by omega
    rw [migrate_loop_bottom j key keyE _ k v hge]
    have hfr : front_leaf (.container ci [l0]) = [l0] := rfl
    rw [hfr]
    refine ⟨?_, ?_, rfl, rfl, by simp [entriesOf_container]⟩
    · intro k'
      rw [fv_slot_container]
      rw [find?_leaf_cons]
      by_cases h1 : k' = k
      · rw [if_pos (show (⟨0, k, v⟩ : leaft).key = k' by simp [h1]), if_pos h1]
        rfl
      · rw [if_neg (show ¬(⟨0, k, v⟩ : leaft).key = k' by simp; omega)]
        rw [if_neg h1, find?_leaf_cons]
        by_cases h2 : k' = l0.key
        · rw [if_pos h2.symm, if_pos h2]
          rfl
        · rw [if_neg (fun he => h2 he.symm), if_neg h2]
          rfl
    · rw [wfNode_container]
      simp only [Bool.and_eq_true, Bool.or_eq_true, decide_eq_true_eq]
      refine ⟨⟨by simp, Or.inl (by omega)⟩, ?_⟩
      simp only [List.map_cons, List.map_nil, distinct_cons, Bool.and_eq_true]
      refine ⟨?_, by simp [distinct_keys]⟩
      simp only [Bool.not_eq_true']
      rw [List.contains_eq_any_beq]
      simp [hkne]
  | succ fuel ih =>
    intro j key keyE ci l0 k v hfuel hk hE hkne
    by_cases hlt : j < levels
    case neg =>
      rw [migrate_loop_bottom j key keyE _ k v hlt]
      have hfr : front_leaf (.container ci [l0]) = [l0] := rfl
      rw [hfr]
      refine ⟨?_, ?_, rfl, rfl, by simp [entriesOf_container]⟩
      · intro k'
        rw [fv_slot_container]
        rw [find?_leaf_cons]
        by_cases h1 : k' = k
        · rw [if_pos (show (⟨0, k, v⟩ : leaft).key = k' by simp [h1]), if_pos h1]
          rfl
        · rw [if_neg (show ¬(⟨0, k, v⟩ : leaft).key = k' by simp; omega)]
          rw [if_neg h1, find?_leaf_cons]
          by_cases h2 : k' = l0.key
          · rw [if_pos h2.symm, if_pos h2]
            rfl
          · rw [if_neg (fun he => h2 he.symm), if_neg h2]
            rfl
      · rw [wfNode_container]
        simp only [Bool.and_eq_true, Bool.or_eq_true, decide_eq_true_eq]
        refine ⟨⟨by simp, Or.inl (by omega)⟩, ?_⟩
        simp only [List.map_cons, List.map_nil, distinct_cons, Bool.and_eq_true]
        refine ⟨?_, by simp [distinct_keys]⟩
        simp only [Bool.not_eq_true']
        rw [List.contains_eq_any_beq]
        simp [hkne]
    case pos =>
      by_cases hbits : key &&& mask = keyE &&& mask
      · -- the chunk streams still agree: one more single-child internal node
        rw [migrate_loop_same j key keyE _ k v hlt hbits]
        have hrec := ih (j + 1) (key >>> chunk) (keyE >>> chunk) ci l0 k v
          (by omega) (by rw [hk, key_suffix_succ]) (by rw [hE, key_suffix_succ])
          hkne
        set rec := migrate_loop (j + 1) (key >>> chunk) (keyE >>> chunk)
          (innert.container ci [l0]) k v with hrecdef
        refine ⟨?_, ?_, rfl, rfl, ?_⟩
        · intro k'
          rw [fv_slot_internal]
          by_cases h1 : key &&& mask = key_suffix h k' j &&& mask
          · rw [fvL_cons_eq _ _ _ _ _ h1, ← key_suffix_succ]
            rw [(hrec.1 k')]
          · rw [fvL_cons_ne _ _ _ _ _ h1, fvL_nil]
            have hk'k : k' ≠ k := by
              intro he
              rw [he, ← hk] at h1
              exact h1 rfl
            have hk'l : k' ≠ l0.key := by
              intro he
              rw [he, ← hE] at h1
              exact h1 hbits
            rw [if_neg hk'k, if_neg hk'l]
        · rw [wfNode_internal, Bool.and_eq_true]
          refine ⟨sortedA_one _ _, ?_⟩
          rw [wfChildren_cons, Bool.and_eq_true, Bool.and_eq_true,
            Bool.and_eq_true]
          refine ⟨⟨⟨by rw [hrec.2.2.1]; rfl, hrec.2.2.2.1⟩, hrec.2.1⟩,
            wfChildren_nil j⟩
        · rw [entriesOf_internal, entriesOfL_cons, entriesOfL_nil,
            List.nil_append]
          exact hrec.2.2.2.2
      · -- the chunk streams diverge here: place both containers
        rw [migrate_loop_diverge j key keyE _ k v hlt hbits]
        have hdk : key &&& mask = key_suffix h k j &&& mask := by rw [hk]
        have hdE : keyE &&& mask = key_suffix h l0.key j &&& mask := by rw [hE]
        constructor
        · intro k'
          rw [fv_slot_internal]
          by_cases h1 : key_suffix h k' j &&& mask = key &&& mask
          · -- descent takes the branch of the new leaf
            have hk'l : k' ≠ l0.key := by
              intro he
              rw [he, ← hdE] at h1
              exact hbits h1.symm
            by_cases hsplit : key &&& mask < keyE &&& mask
            · rw [if_pos hsplit]
              rw [fvL_cons_eq _ _ _ _ _ h1.symm, fv_slot_container,
                find?_leaf_cons]
              by_cases h2 : k' = k
              · rw [if_pos (by simp [h2]), if_pos h2]
                rfl
              · rw [if_neg (by simp; omega), if_neg h2, if_neg hk'l]
                rfl
            · rw [if_neg hsplit]
              rw [fvL_cons_ne _ _ _ _ _ (by omega)]
              rw [fvL_cons_eq _ _ _ _ _ h1.symm, fv_slot_container,
                find?_leaf_cons]
              by_cases h2 : k' = k
              · rw [if_pos (by simp [h2]), if_pos h2]
                rfl
              · rw [if_neg (by simp; omega), if_neg h2, if_neg hk'l]
                rfl
          · by_cases h2 : key_suffix h k' j &&& mask = keyE &&& mask
            · -- descent takes the branch of the migrated container
              have hk'k : k' ≠ k := by
                intro he
                rw [he, ← hdk] at h2
                exact hbits h2
              rw [if_neg hk'k]
              by_cases hsplit : key &&& mask < keyE &&& mask
              · rw [if_pos hsplit]
                rw [fvL_cons_ne _ _ _ _ _ (by omega)]
                rw [fvL_cons_eq _ _ _ _ _ h2.symm, fv_slot_container,
                  find?_leaf_cons]
                by_cases h3 : k' = l0.key
                · rw [if_pos h3.symm, if_pos h3]
                  rfl
                · rw [if_neg (fun he => h3 he.symm), if_neg h3]
                  rfl
              · rw [if_neg hsplit]
                rw [fvL_cons_eq _ _ _ _ _ h2.symm, fv_slot_container,
                  find?_leaf_cons]
                by_cases h3 : k' = l0.key
                · rw [if_pos h3.symm, if_pos h3]
                  rfl
                · rw [if_neg (fun he => h3 he.symm), if_neg h3]
                  rfl
            · -- descent misses both branches
              have hk'k : k' ≠ k := by
                intro he
                rw [he, ← hdk] at h1
                exact h1 rfl
              have hk'l : k' ≠ l0.key := by
                intro he
                rw [he, ← hdE] at h2
                exact h2 rfl
              rw [if_neg hk'k, if_neg hk'l]
              by_cases hsplit : key &&& mask < keyE &&& mask
              · rw [if_pos hsplit]
                rw [fvL_cons_ne _ _ _ _ _ (by omega),
                  fvL_cons_ne _ _ _ _ _ (by omega), fvL_nil]
              · rw [if_neg hsplit]
                rw [fvL_cons_ne _ _ _ _ _ (by omega),
                  fvL_cons_ne _ _ _ _ _ (by omega), fvL_nil]
        · have hwfK : wfNode (.container 0 [(⟨0, k, v⟩ : leaft)]) (j + 1) = true := by
            rw [wfNode_container]
            simp [is_singular, distinct_keys]
          have hwfC : wfNode (.container ci [l0]) (j + 1) = true := by
            rw [wfNode_container]
            simp [is_singular, distinct_keys]
          by_cases hsplit : key &&& mask < keyE &&& mask
          · rw [if_pos hsplit]
            refine ⟨?_, rfl, rfl, ?_⟩
            · rw [wfNode_internal, Bool.and_eq_true]
              refine ⟨?_, ?_⟩
              · rw [sortedA_cons2, Bool.and_eq_true]
                exact ⟨by simp [hsplit], sortedA_one _ _⟩
              · rw [wfChildren_cons, Bool.and_eq_true, Bool.and_eq_true,
                  Bool.and_eq_true]
                refine ⟨⟨⟨rfl, rfl⟩, hwfK⟩, ?_⟩
                rw [wfChildren_cons, Bool.and_eq_true, Bool.and_eq_true,
                  Bool.and_eq_true]
                exact ⟨⟨⟨rfl, rfl⟩, hwfC⟩, wfChildren_nil j⟩
            · rw [entriesOf_internal, entriesOfL_cons, entriesOfL_cons,
                entriesOfL_nil, List.nil_append]
              simp [entriesOf_container]
          · rw [if_neg hsplit]
            refine ⟨?_, rfl, rfl, ?_⟩
            · rw [wfNode_internal, Bool.and_eq_true]
              refine ⟨?_, ?_⟩
              · rw [sortedA_cons2, Bool.and_eq_true]
                refine ⟨by simp; omega, sortedA_one _ _⟩
              · rw [wfChildren_cons, Bool.and_eq_true, Bool.and_eq_true,
                  Bool.and_eq_true]
                refine ⟨⟨⟨rfl, rfl⟩, hwfC⟩, ?_⟩
                rw [wfChildren_cons, Bool.and_eq_true, Bool.and_eq_true,
                  Bool.and_eq_true]
                exact ⟨⟨⟨rfl, rfl⟩, hwfK⟩, wfChildren_nil j⟩
            · rw [entriesOf_internal, entriesOfL_cons, entriesOfL_cons,
                entriesOfL_nil, List.nil_append]
              simp [entriesOf_container]

/-! ## Equations for insert and erase -/

theorem place_leaf_empty (k v : Nat) :
    place_leaf .empty k v = .container 0 [⟨0, k, v⟩] := rfl

theorem place_leaf_container (ci k v : Nat) (ll : List leaft) :
    place_leaf (.container ci ll) k v = .container ci (⟨0, k, v⟩ :: ll) := rfl

theorem ic_nil (h : Nat → Nat) (level key k v : Nat) :
    insert_children h [] level key k v =
      [(key &&& mask, .container 0 [⟨0, k, v⟩])] := rfl

theorem ic_cons (h : Nat → Nat) (b : Nat) (c : innert)
    (rest : List (Nat × innert)) (level key k v : Nat) :
    insert_children h ((b, c) :: rest) level key k v =
      if key &&& mask < b then
        (key &&& mask, .container 0 [⟨0, k, v⟩]) :: (b, c) :: rest
      else if key &&& mask = b then
        (b, insert_slot h c level key k v) :: rest
      else
        (b, c) :: insert_children h rest level key k v := rfl

theorem is_empty_eq (h : Nat → Nat) (level key k v : Nat) :
    insert_slot h .empty level key k v = place_leaf .empty k v := rfl

theorem is_container_eq (h : Nat → Nat) (ci level key k v : Nat)
    (ll : List leaft) :
    insert_slot h (.container ci ll) level key k v =
      if level < levels - 1 then migrate h level key (.container ci ll) k v
      else place_leaf (.container ci ll) k v := rfl

theorem is_internal_eq (h : Nat → Nat) (ci level key k v : Nat)
    (mc : List (Nat × innert)) :
    insert_slot h (.internal ci mc) level key k v =
      .internal ci (insert_children h mc (level + 1) (key >>> chunk) k v) := rfl

theorem migrate_eq (h : Nat → Nat) (sl key k v : Nat) (child : innert) :
    migrate h sl key child k v =
      migrate_loop (sl + 1) (key >>> chunk)
        ((h (front_key child) >>> (chunk * sl)) >>> chunk) child k v := rfl

theorem ec_nil (bit key k : Nat) : erase_children [] bit key k = [] := by
  rw [erase_children]

theorem ec_cons_cont (b ci bit key k : Nat) (ll : List leaft)
    (rest : List (Nat × innert)) :
    erase_children ((b, .container ci ll) :: rest) bit key k =
      if b = bit then
        (if is_singular ll then rest
         else (b, .container ci (remove_leaf ll k)) :: rest)
      else (b, .container ci ll) :: erase_children rest bit key k := by
  rw [erase_children]

theorem ec_cons_int (b ci bit key k : Nat) (mc rest : List (Nat × innert)) :
    erase_children ((b, .internal ci mc) :: rest) bit key k =
      if b = bit then
        (if (erase_children mc (key &&& mask) (key >>> chunk) k).isEmpty then rest
         else (b, .internal ci (erase_children mc (key &&& mask) (key >>> chunk) k))
           :: rest)
      else (b, .internal ci mc) :: erase_children rest bit key k := by
  rw [erase_children]

theorem ec_cons_empty (b bit key k : Nat) (rest : List (Nat × innert)) :
    erase_children ((b, .empty) :: rest) bit key k =
      if b = bit then (b, .empty) :: rest
      else (b, .empty) :: erase_children rest bit key k := by
  rw [erase_children]

/-! ## Small structural helpers -/

theorem sortedA_replace_snd (b : Nat) (c c2 : innert)
    (rest : List (Nat × innert)) :
    sortedA ((b, c) :: rest) = sortedA ((b, c2) :: rest) := by
  cases rest with
  | nil => rfl
  | cons hd tl => rfl

theorem sortedA_cons_of_lt (b : Nat) (c : innert) (rest : List (Nat × innert))
    (hlt : ∀ p ∈ rest, b < p.1) (hs : sortedA rest = true) :
    sortedA ((b, c) :: rest) = true := by
  cases rest with
  | nil => rfl
  | cons hd tl =>
    obtain ⟨b2, c2⟩ := hd
    rw [sortedA_cons2, Bool.and_eq_true]
    exact ⟨by simp [hlt (b2, c2) (by simp)], hs⟩

theorem is_singular_eq (ll : List leaft) (hs : is_singular ll = true) :
    ∃ l0, ll = [l0] := by
  cases ll with
  | nil => simp [is_singular] at hs
  | cons l rest =>
    cases rest with
    | nil => exact ⟨l, rfl⟩
    | cons l2 t => simp [is_singular] at hs

theorem contains_false_of_forall (ks : List Nat) (x : Nat)
    (h : ∀ y ∈ ks, y ≠ x) : ks.contains x = false := by
  by_contra hc
  rw [Bool.not_eq_false, List.contains_eq_any_beq] at hc
  obtain ⟨y, hy, hbeq⟩ := List.any_eq_true.mp hc
  exact h y hy ((by simpa using hbeq : x = y).symm)

theorem ic_ne_nil (h : Nat → Nat) (m : List (Nat × innert))
    (level key k v : Nat) : insert_children h m level key k v ≠ [] := by
  cases m with
  | nil => rw [ic_nil]; simp
  | cons hd tl =>
    obtain ⟨b, c⟩ := hd
    rw [ic_cons]
    by_cases h1 : key &&& mask < b
    · rw [if_pos h1]; simp
    · rw [if_neg h1]
      by_cases h2 : key &&& mask = b
      · rw [if_pos h2]; simp
      · rw [if_neg h2]; simp

theorem mem_ic (h : Nat → Nat) (m : List (Nat × innert)) (level key k v : Nat) :
    ∀ p ∈ insert_children h m level key k v, p.1 = (key &&& mask) ∨ p ∈ m := by
  induction m with
  | nil =>
    intro p hp
    rw [ic_nil] at hp
    rcases List.mem_singleton.mp hp with hp2
    rw [hp2]
    exact Or.inl rfl
  | cons hd tl ih =>
    obtain ⟨b, c⟩ := hd
    intro p hp
    rw [ic_cons] at hp
    by_cases h1 : key &&& mask < b
    · rw [if_pos h1] at hp
      rcases List.mem_cons.mp hp with h2 | h2
      · rw [h2]; exact Or.inl rfl
      · exact Or.inr h2
    · rw [if_neg h1] at hp
      by_cases h2 : key &&& mask = b
      · rw [if_pos h2] at hp
        rcases List.mem_cons.mp hp with h3 | h3
        · rw [h3]; exact Or.inl h2.symm
        · exact Or.inr (List.mem_cons_of_mem _ h3)
      · rw [if_neg h2] at hp
        rcases List.mem_cons.mp hp with h3 | h3
        · rw [h3]; exact Or.inr (by simp)
        · rcases ih p h3 with h4 | h4
          · exact Or.inl h4
          · exact Or.inr (List.mem_cons_of_mem _ h4)

theorem wf_fresh_container (k v lv : Nat) :
    wfNode (.container 0 [⟨0, k, v⟩]) lv = true := by
  rw [wfNode_container]
  simp [is_singular, distinct_keys]

/-! ## Decomposing and building well-formedness -/

theorem wfChildren_parts (b level : Nat) (c : innert)
    (rest : List (Nat × innert))
    (hwc : wfChildren ((b, c) :: rest) level = true) :
    is_empty_node c = false ∧ non_degenerate c = true ∧
      wfNode c (level + 1) = true ∧ wfChildren rest level = true := by
  rw [wfChildren_cons, Bool.and_eq_true, Bool.and_eq_true,
    Bool.and_eq_true] at hwc
  refine ⟨?_, hwc.1.1.2, hwc.1.2, hwc.2⟩
  have := hwc.1.1.1
  rwa [Bool.not_eq_true'] at this

theorem wfChildren_build (b level : Nat) (c : innert)
    (rest : List (Nat × innert)) (hne : is_empty_node c = false)
    (hnd : non_degenerate c = true) (hwf : wfNode c (level + 1) = true)
    (hrest : wfChildren rest level = true) :
    wfChildren ((b, c) :: rest) level = true := by
  rw [wfChildren_cons, Bool.and_eq_true, Bool.and_eq_true, Bool.and_eq_true]
  exact ⟨⟨⟨by rw [hne]; rfl, hnd⟩, hwf⟩, hrest⟩

theorem wfNode_container_parts (ci level : Nat) (ll : List leaft)
    (hwf : wfNode (.container ci ll) level = true) :
    ll ≠ [] ∧ (levels ≤ level ∨ is_singular ll = true) ∧
      distinct_keys (ll.map leaft.key) = true := by
  rw [wfNode_container, Bool.and_eq_true, Bool.and_eq_true] at hwf
  refine ⟨?_, ?_, hwf.2⟩
  · have := hwf.1.1
    cases ll <;> simp_all
  · have := hwf.1.2
    rw [Bool.or_eq_true, decide_eq_true_eq] at this
    exact this

theorem wfNode_container_build (ci level : Nat) (ll : List leaft)
    (hne : ll ≠ []) (hsing : levels ≤ level ∨ is_singular ll = true)
    (hd : distinct_keys (ll.map leaft.key) = true) :
    wfNode (.container ci ll) level = true := by
  rw [wfNode_container, Bool.and_eq_true, Bool.and_eq_true]
  refine ⟨⟨by cases ll <;> simp_all, ?_⟩, hd⟩
  rw [Bool.or_eq_true, decide_eq_true_eq]
  exact hsing

theorem wfNode_internal_parts (ci level : Nat) (mc : List (Nat × innert))
    (hwf : wfNode (.internal ci mc) level = true) :
    sortedA mc = true ∧ wfChildren mc level = true := by
  rw [wfNode_internal, Bool.and_eq_true] at hwf
  exact hwf

theorem wfNode_internal_build (ci level : Nat) (mc : List (Nat × innert))
    (hs : sortedA mc = true) (hwc : wfChildren mc level = true) :
    wfNode (.internal ci mc) level = true := by
  rw [wfNode_internal, Bool.and_eq_true]
  exact ⟨hs, hwc⟩

theorem fv_single_leaf (l0 : leaft) (k2 : Nat) :
    (List.find? (fun x => x.key == k2) [l0]).map leaft.value =
      if k2 = l0.key then some l0.value else none := by
  rw [find?_leaf_cons]
  by_cases h2 : k2 = l0.key
  · rw [if_pos h2.symm, if_pos h2]; rfl
  · rw [if_neg (fun he => h2 he.symm), if_neg h2]; rfl

theorem non_degenerate_internal_of_ne_nil (ci : Nat)
    (mc : List (Nat × innert)) (hne : mc ≠ []) :
    non_degenerate (.internal ci mc) = true := by
  cases mc with
  | nil => exact absurd rfl hne
  | cons hd tl => rfl

theorem fv_fresh_container (k v k2 : Nat) :
    (List.find? (fun x => x.key == k2) [(⟨0, k, v⟩ : leaft)]).map leaft.value =
      if k2 = k then some v else none := by
  rw [fv_single_leaf]

/-! ## The insert walk: find-after-insert, preservation of well-formedness,
and the entry count.  The `key` argument threaded through the walk is the
suffix of the hash of the inserted key at the current level. -/

theorem insert_children_spec (h : Nat → Nat) :
    ∀ sz (m : List (Nat × innert)) (level k v : Nat), sizeL m < sz →
      sortedA m = true → wfChildren m level = true →
      find_value_inL m (key_suffix h k level) k = none →
      (∀ k', find_value_inL (insert_children h m level (key_suffix h k level) k v)
          (key_suffix h k' level) k' =
        if k' = k then some v
        else find_value_inL m (key_suffix h k' level) k') ∧
      sortedA (insert_children h m level (key_suffix h k level) k v) = true ∧
      wfChildren (insert_children h m level (key_suffix h k level) k v) level
        = true ∧
      (entriesOfL (insert_children h m level (key_suffix h k level) k v)).length
        = (entriesOfL m).length + 1 := by
  intro sz
  induction sz with
  | zero => intro m level k v hsz; omega
  | succ sz ih =>
    intro m level k v hsz hs hwc habs
    induction m with
    | nil =>
      refine ⟨?_, ?_, ?_, ?_⟩
      · intro k'
        rw [ic_nil]
        by_cases h1 : key_suffix h k level &&& mask = key_suffix h k' level &&& mask
        · rw [fvL_cons_eq _ _ _ _ _ h1, fv_slot_container, fv_fresh_container]
          by_cases h2 : k' = k
          · simp only [if_pos h2]
          · simp only [if_neg h2, fvL_nil]
        · rw [fvL_cons_ne _ _ _ _ _ h1, fvL_nil]
          have hk2 : k' ≠ k := fun he => h1 (by rw [he])
          rw [if_neg hk2]
      · rw [ic_nil]; exact sortedA_one _ _
      · rw [ic_nil]
        exact wfChildren_build _ _ _ _ rfl rfl (wf_fresh_container k v _)
          (wfChildren_nil _)
      · rw [ic_nil, entriesOfL_cons, entriesOfL_nil, entriesOf_container]
        simp
    | cons hd tl ih2 =>
      obtain ⟨b, c⟩ := hd
      rw [sizeL_cons] at hsz
      have hcpos := sizeN_pos c
      have hparts := wfChildren_parts b level c tl hwc
      have hstl := sortedA_tail b c tl hs
      by_cases hlt : key_suffix h k level &&& mask < b
      · -- fresh slot inserted before the current head
        refine ⟨?_, ?_, ?_, ?_⟩
        · intro k'
          rw [ic_cons, if_pos hlt]
          by_cases h1 : key_suffix h k level &&& mask = key_suffix h k' level &&& mask
          · rw [fvL_cons_eq _ _ _ _ _ h1, fv_slot_container, fv_fresh_container]
            by_cases h2 : k' = k
            · simp only [if_pos h2]
            · simp only [if_neg h2]
              symm
              apply fvL_none_of_all_ne
              intro p hp
              rw [← h1]
              rcases List.mem_cons.mp hp with h3 | h3
              · rw [h3]; omega
              · have := sortedA_head_lt b c tl hs p h3
                omega
          · rw [fvL_cons_ne _ _ _ _ _ h1]
            have hk2 : k' ≠ k := fun he => h1 (by rw [he])
            rw [if_neg hk2]
        · rw [ic_cons, if_pos hlt]
          apply sortedA_cons_of_lt
          · intro p hp
            rcases List.mem_cons.mp hp with h3 | h3
            · rw [h3]; exact hlt
            · exact lt_trans hlt (sortedA_head_lt b c tl hs p h3)
          · exact hs
        · rw [ic_cons, if_pos hlt]
          exact wfChildren_build _ _ _ _ rfl rfl (wf_fresh_container k v _) hwc
        · rw [ic_cons, if_pos hlt, entriesOfL_cons, entriesOf_container]
          simp
      · by_cases heqb : key_suffix h k level &&& mask = b
        · -- the slot of the inserted key exists: act on it
          rw [fvL_cons_eq _ _ _ _ _ heqb.symm, ← key_suffix_succ] at habs
          have hneb : ¬(key_suffix h k level &&& mask < b) := hlt
          cases c with
          | empty =>
            rw [fv_slot_empty] at habs
            refine ⟨?_, ?_, ?_, ?_⟩
            · intro k'
              rw [ic_cons, if_neg hneb, if_pos heqb, is_empty_eq, place_leaf_empty]
              by_cases h1 : b = key_suffix h k' level &&& mask
              · rw [fvL_cons_eq _ _ _ _ _ h1, fv_slot_container,
                  fv_fresh_container, fvL_cons_eq _ _ _ _ _ h1, fv_slot_empty]
              · rw [fvL_cons_ne _ _ _ _ _ h1, fvL_cons_ne _ _ _ _ _ h1]
                have hk2 : k' ≠ k := fun he => h1 (by rw [he, ← heqb])
                rw [if_neg hk2]
            · rw [ic_cons, if_neg hneb, if_pos heqb,
                sortedA_replace_snd b _ innert.empty tl]
              exact hs
            · rw [ic_cons, if_neg hneb, if_pos heqb, is_empty_eq,
                place_leaf_empty]
              exact wfChildren_build _ _ _ _ rfl rfl (wf_fresh_container k v _)
                hparts.2.2.2
            · rw [ic_cons, if_neg hneb, if_pos heqb, is_empty_eq,
                place_leaf_empty, entriesOfL_cons, entriesOfL_cons,
                entriesOf_container, entriesOf_empty]
              simp
          | container ci ll =>
            have hcparts := wfNode_container_parts ci (level + 1) ll hparts.2.2.1
            by_cases hlev : level < levels - 1
            · -- migrate the singular container downwards
              have hsing : is_singular ll = true := by
                rcases hcparts.2.1 with h3 | h3
                · have := levels_eq; omega
                · exact h3
              obtain ⟨l0, rfl⟩ := is_singular_eq ll hsing
              rw [fv_slot_container, fv_single_leaf] at habs
              have hkne : k ≠ l0.key := by
                intro he
                rw [if_pos he] at habs
                simp at habs
              have hml := migrate_loop_spec h levels (level + 1)
                (key_suffix h k (level + 1)) (key_suffix h l0.key (level + 1))
                ci l0 k v (by omega) rfl rfl hkne
              have hslot : insert_slot h (.container ci [l0]) level
                  (key_suffix h k level) k v =
                  migrate_loop (level + 1) (key_suffix h k (level + 1))
                    (key_suffix h l0.key (level + 1)) (.container ci [l0]) k v := by
                rw [is_container_eq, if_pos hlev, migrate_eq]
                rw [show front_key (.container ci [l0]) = l0.key from rfl]
                rw [show (h l0.key >>> (chunk * level)) =
                  key_suffix h l0.key level from rfl]
                rw [← key_suffix_succ, ← key_suffix_succ]
              refine ⟨?_, ?_, ?_, ?_⟩
              · intro k'
                rw [ic_cons, if_neg hneb, if_pos heqb, hslot]
                by_cases h1 : b = key_suffix h k' level &&& mask
                · rw [fvL_cons_eq _ _ _ _ _ h1, ← key_suffix_succ, hml.1 k',
                    fvL_cons_eq _ _ _ _ _ h1, fv_slot_container, fv_single_leaf]
                · rw [fvL_cons_ne _ _ _ _ _ h1, fvL_cons_ne _ _ _ _ _ h1]
                  have hk2 : k' ≠ k := fun he => h1 (by rw [he, ← heqb])
                  rw [if_neg hk2]
              · rw [ic_cons, if_neg hneb, if_pos heqb,
                  sortedA_replace_snd b _ (innert.container ci [l0]) tl]
                exact hs
              · rw [ic_cons, if_neg hneb, if_pos heqb, hslot]
                exact wfChildren_build _ _ _ _ hml.2.2.1 hml.2.2.2.1 hml.2.1
                  hparts.2.2.2
              · rw [ic_cons, if_neg hneb, if_pos heqb, hslot, entriesOfL_cons,
                  entriesOfL_cons, entriesOf_container]
                rw [List.length_append, List.length_append, hml.2.2.2.2]
                simp
            · -- chain the new leaf in the bottom container
              rw [fv_slot_container] at habs
              have hforall : ∀ l ∈ ll, l.key ≠ k := by
                intro l hl
                have hn : List.find? (fun x => x.key == k) ll = none := by
                  cases hfind : List.find? (fun x => x.key == k) ll with
                  | none => rfl
                  | some x => rw [hfind] at habs; simp at habs
                have := List.find?_eq_none.mp hn l hl
                simpa using this
              refine ⟨?_, ?_, ?_, ?_⟩
              · intro k'
                rw [ic_cons, if_neg hneb, if_pos heqb, is_container_eq,
                  if_neg hlev, place_leaf_container]
                by_cases h1 : b = key_suffix h k' level &&& mask
                · rw [fvL_cons_eq _ _ _ _ _ h1, fv_slot_container,
                    find?_leaf_cons, fvL_cons_eq _ _ _ _ _ h1, fv_slot_container]
                  by_cases h2 : k' = k
                  · rw [if_pos (show (⟨0, k, v⟩ : leaft).key = k' by
                      simp [h2]), if_pos h2]
                    rfl
                  · rw [if_neg (show ¬(⟨0, k, v⟩ : leaft).key = k' from
                      fun he => h2 (by simpa using he.symm)), if_neg h2]
                · rw [fvL_cons_ne _ _ _ _ _ h1, fvL_cons_ne _ _ _ _ _ h1]
                  have hk2 : k' ≠ k := fun he => h1 (by rw [he, ← heqb])
                  rw [if_neg hk2]
              · rw [ic_cons, if_neg hneb, if_pos heqb,
                  sortedA_replace_snd b _ (innert.container ci ll) tl]
                exact hs
              · rw [ic_cons, if_neg hneb, if_pos heqb, is_container_eq,
                  if_neg hlev, place_leaf_container]
                refine wfChildren_build _ _ _ _ rfl rfl ?_ hparts.2.2.2
                apply wfNode_container_build
                · simp
                · left
                  have := levels_eq
                  omega
                · rw [List.map_cons, distinct_cons, Bool.and_eq_true]
                  refine ⟨?_, hcparts.2.2⟩
                  rw [Bool.not_eq_true']
                  apply contains_false_of_forall
                  intro y hy
                  obtain ⟨l, hl, hkey⟩ := List.mem_map.mp hy
                  rw [← hkey]
                  exact hforall l hl
              · rw [ic_cons, if_neg hneb, if_pos heqb, is_container_eq,
                  if_neg hlev, place_leaf_container, entriesOfL_cons,
                  entriesOfL_cons, entriesOf_container, entriesOf_container]
                simp only [List.length_append, List.map_cons, List.length_cons,
                  List.length_map]
                omega
          | internal ci mc =>
            rw [fv_slot_internal] at habs
            have hip := wfNode_internal_parts ci (level + 1) mc hparts.2.2.1
            have hszc : sizeL mc < sz := by
              have : sizeN (innert.internal ci mc) = 1 + sizeL mc := rfl
              omega
            have hih := ih mc (level + 1) k v hszc hip.1 hip.2 habs
            have hslot : insert_slot h (.internal ci mc) level
                (key_suffix h k level) k v =
                .internal ci (insert_children h mc (level + 1)
                  (key_suffix h k (level + 1)) k v) := by
              rw [is_internal_eq, ← key_suffix_succ]
            refine ⟨?_, ?_, ?_, ?_⟩
            · intro k'
              rw [ic_cons, if_neg hneb, if_pos heqb, hslot]
              by_cases h1 : b = key_suffix h k' level &&& mask
              · rw [fvL_cons_eq _ _ _ _ _ h1, fv_slot_internal,
                  ← key_suffix_succ, hih.1 k', fvL_cons_eq _ _ _ _ _ h1,
                  fv_slot_internal, ← key_suffix_succ]
              · rw [fvL_cons_ne _ _ _ _ _ h1, fvL_cons_ne _ _ _ _ _ h1]
                have hk2 : k' ≠ k := fun he => h1 (by rw [he, ← heqb])
                rw [if_neg hk2]
            · rw [ic_cons, if_neg hneb, if_pos heqb,
                sortedA_replace_snd b _ (innert.internal ci mc) tl]
              exact hs
            · rw [ic_cons, if_neg hneb, if_pos heqb, hslot]
              refine wfChildren_build _ _ _ _ rfl
                (non_degenerate_internal_of_ne_nil _ _ (ic_ne_nil h mc _ _ k v))
                (wfNode_internal_build _ _ _ hih.2.1 hih.2.2.1) hparts.2.2.2
            · rw [ic_cons, if_neg hneb, if_pos heqb, hslot, entriesOfL_cons,
                entriesOfL_cons, entriesOf_internal, entriesOf_internal]
              rw [List.length_append, List.length_append, hih.2.2.2]
              omega
        · -- the inserted chunk is larger: keep the head, recurse on the tail
          have hgt : b < key_suffix h k level &&& mask := by omega
          rw [fvL_cons_ne _ _ _ _ _ (fun he => heqb he.symm)] at habs
          have hih2 := ih2 (by omega) hstl hparts.2.2.2 habs
          refine ⟨?_, ?_, ?_, ?_⟩
          · intro k'
            rw [ic_cons, if_neg hlt, if_neg heqb]
            by_cases h1 : b = key_suffix h k' level &&& mask
            · have hk2 : k' ≠ k := fun he => heqb (by rw [← he, ← h1])
              rw [fvL_cons_eq _ _ _ _ _ h1, fvL_cons_eq _ _ _ _ _ h1,
                if_neg hk2]
            · rw [fvL_cons_ne _ _ _ _ _ h1, fvL_cons_ne _ _ _ _ _ h1,
                hih2.1 k']
          · rw [ic_cons, if_neg hlt, if_neg heqb]
            apply sortedA_cons_of_lt
            · intro p hp
              rcases mem_ic h tl level (key_suffix h k level) k v p hp with
                h3 | h3
              · omega
              · exact sortedA_head_lt b c tl hs p h3
            · exact hih2.2.1
          · rw [ic_cons, if_neg hlt, if_neg heqb]
            exact wfChildren_build _ _ _ _ hparts.1 hparts.2.1 hparts.2.2.1
              hih2.2.2.1
          · rw [ic_cons, if_neg hlt, if_neg heqb, entriesOfL_cons,
              entriesOfL_cons]
            rw [List.length_append, List.length_append, hih2.2.2.2]
            omega

/-! ## Helpers for the erase walk -/

theorem ec_cons_ne (b bit key k : Nat) (c : innert)
    (rest : List (Nat × innert)) (hne : b ≠ bit) :
    erase_children ((b, c) :: rest) bit key k =
      (b, c) :: erase_children rest bit key k := by
  cases c with
  | empty => rw [ec_cons_empty, if_neg hne]
  | internal ci mc => rw [ec_cons_int, if_neg hne]
  | container ci ll => rw [ec_cons_cont, if_neg hne]

theorem mem_ec_keys (m : List (Nat × innert)) (bit key k : Nat) :
    ∀ p ∈ erase_children m bit key k, p.1 ∈ m.map Prod.fst := by
  induction m with
  | nil => intro p hp; rw [ec_nil] at hp; simp at hp
  | cons hd tl ih =>
    obtain ⟨b, c⟩ := hd
    intro p hp
    by_cases hb : b = bit
    · cases c with
      | empty =>
        rw [ec_cons_empty, if_pos hb] at hp
        rcases List.mem_cons.mp hp with h2 | h2
        · rw [h2]; simp
        · simp only [List.map_cons, List.mem_cons]
          exact Or.inr (List.mem_map_of_mem Prod.fst h2)
      | container ci ll =>
        rw [ec_cons_cont, if_pos hb] at hp
        by_cases hsing : is_singular ll = true
        · rw [if_pos hsing] at hp
          simp only [List.map_cons, List.mem_cons]
          exact Or.inr (List.mem_map_of_mem Prod.fst hp)
        · rw [if_neg hsing] at hp
          rcases List.mem_cons.mp hp with h2 | h2
          · rw [h2]; simp
          · simp only [List.map_cons, List.mem_cons]
            exact Or.inr (List.mem_map_of_mem Prod.fst h2)
      | internal ci mc =>
        rw [ec_cons_int, if_pos hb] at hp
        by_cases hemp : (erase_children mc (key &&& mask) (key >>> chunk) k).isEmpty = true
        · rw [if_pos hemp] at hp
          simp only [List.map_cons, List.mem_cons]
          exact Or.inr (List.mem_map_of_mem Prod.fst hp)
        · rw [if_neg hemp] at hp
          rcases List.mem_cons.mp hp with h2 | h2
          · rw [h2]; simp
          · simp only [List.map_cons, List.mem_cons]
            exact Or.inr (List.mem_map_of_mem Prod.fst h2)
    · rw [ec_cons_ne b bit key k c tl hb] at hp
      rcases List.mem_cons.mp hp with h2 | h2
      · rw [h2]; simp
      · simp only [List.map_cons, List.mem_cons]
        exact Or.inr (ih p h2)

theorem two_le_length_of_not_singular (ll : List leaft) (hne : ll ≠ [])
    (hsing : is_singular ll = false) : 2 ≤ ll.length := by
  cases ll with
  | nil => exact absurd rfl hne
  | cons l rest =>
    cases rest with
    | nil => simp [is_singular] at hsing
    | cons l2 t => simp

theorem eq_singleton_of_len_one (l : List (Nat × Nat)) (x : Nat × Nat)
    (hl : l.length = 1) (hx : x ∈ l) : l = [x] := by
  cases l with
  | nil => simp at hx
  | cons hd tl =>
    cases tl with
    | nil =>
      rcases List.mem_singleton.mp hx with h
      rw [h]
    | cons hd2 tl2 => simp at hl

theorem fvL_tail_none (b : Nat) (c : innert) (tl : List (Nat × innert))
    (key k : Nat) (hs : sortedA ((b, c) :: tl) = true)
    (hb : b = key &&& mask) : find_value_inL tl key k = none := by
  apply fvL_none_of_all_ne
  intro p hp
  have := sortedA_head_lt b c tl hs p hp
  omega

/-! ## The erase walk: find-after-erase, preservation of well-formedness,
and the entry count -/

theorem erase_children_spec (h : Nat → Nat) :
    ∀ sz (m : List (Nat × innert)) (level k w : Nat), sizeL m < sz →
      sortedA m = true → wfChildren m level = true →
      find_value_inL m (key_suffix h k level) k = some w →
      (∀ k', find_value_inL
          (erase_children m (key_suffix h k level &&& mask)
            (key_suffix h k level >>> chunk) k)
          (key_suffix h k' level) k' =
        if k' = k then none
        else find_value_inL m (key_suffix h k' level) k') ∧
      sortedA (erase_children m (key_suffix h k level &&& mask)
        (key_suffix h k level >>> chunk) k) = true ∧
      wfChildren (erase_children m (key_suffix h k level &&& mask)
        (key_suffix h k level >>> chunk) k) level = true ∧
      (entriesOfL (erase_children m (key_suffix h k level &&& mask)
        (key_suffix h k level >>> chunk) k)).length + 1 =
        (entriesOfL m).length := by
  intro sz
  induction sz with
  | zero => intro m level k w hsz; omega
  | succ sz ih =>
    intro m level k w hsz hs hwc hpres
    induction m with
    | nil => rw [fvL_nil] at hpres; simp at hpres
    | cons hd tl ih2 =>
      obtain ⟨b, c⟩ := hd
      rw [sizeL_cons] at hsz
      have hcpos := sizeN_pos c
      have hparts := wfChildren_parts b level c tl hwc
      have hstl := sortedA_tail b c tl hs
      by_cases hb : b = key_suffix h k level &&& mask
      · -- the slot of the erased key
        rw [fvL_cons_eq _ _ _ _ _ hb, ← key_suffix_succ] at hpres
        cases c with
        | empty => rw [fv_slot_empty] at hpres; simp at hpres
        | container ci ll =>
          rw [fv_slot_container] at hpres
          obtain ⟨l, hfl, hlv⟩ : ∃ l, List.find? (fun x => x.key == k) ll
              = some l ∧ l.value = w := by
            cases hf2 : List.find? (fun x => x.key == k) ll with
            | none => rw [hf2] at hpres; simp at hpres
            | some l =>
              rw [hf2] at hpres
              exact ⟨l, rfl, Option.some.inj hpres⟩
          have hlk : l.key = k := by
            have := List.find?_some hfl
            simpa using this
          have hlm : l ∈ ll := List.mem_of_find?_eq_some hfl
          have hcparts := wfNode_container_parts ci (level + 1) ll hparts.2.2.1
          by_cases hsing : is_singular ll = true
          · -- singular container: the whole slot is removed
            obtain ⟨l0, rfl⟩ := is_singular_eq ll hsing
            rcases List.mem_singleton.mp hlm with h2
            have hl0k : l0.key = k := by rw [← h2]; exact hlk
            rw [ec_cons_cont, if_pos hb, if_pos hsing]
            refine ⟨?_, hstl, hparts.2.2.2, ?_⟩
            · intro k'
              by_cases h3 : k' = k
              · rw [if_pos h3, h3]
                exact fvL_tail_none b _ tl _ k hs hb
              · rw [if_neg h3]
                by_cases h1 : b = key_suffix h k' level &&& mask
                · rw [fvL_cons_eq _ _ _ _ _ h1, fv_slot_container,
                    fv_single_leaf, if_neg (by rw [hl0k]; exact h3)]
                  exact fvL_tail_none b _ tl _ k' hs h1
                · rw [fvL_cons_ne _ _ _ _ _ h1]
            · rw [entriesOfL_cons, entriesOf_container]
              simp
          · -- several leaves: only the matching leaf is removed
            have hsf : is_singular ll = false := by
              cases hx : is_singular ll with
              | false => rfl
              | true => exact absurd hx hsing
            rw [ec_cons_cont, if_pos hb, if_neg hsing]
            have hrl : ∀ k2, (List.find? (fun x => x.key == k2)
                (remove_leaf ll k)).map leaft.value =
                if k2 = k then none
                else (List.find? (fun x => x.key == k2) ll).map leaft.value := by
              intro k2
              by_cases h3 : k2 = k
              · rw [if_pos h3, h3, find?_remove_leaf_self ll k hcparts.2.2]
                rfl
              · rw [if_neg h3, find?_remove_leaf_other ll k k2 h3]
            refine ⟨?_, ?_, ?_, ?_⟩
            · intro k'
              by_cases h1 : b = key_suffix h k' level &&& mask
              · rw [fvL_cons_eq _ _ _ _ _ h1, fv_slot_container, hrl k',
                  fvL_cons_eq _ _ _ _ _ h1, fv_slot_container]
              · rw [fvL_cons_ne _ _ _ _ _ h1, fvL_cons_ne _ _ _ _ _ h1]
                have hk2 : k' ≠ k := fun he => h1 (by rw [he, ← hb])
                rw [if_neg hk2]
            · rw [sortedA_replace_snd b _ (innert.container ci ll) tl]
              exact hs
            · refine wfChildren_build _ _ _ _ rfl rfl ?_ hparts.2.2.2
              apply wfNode_container_build
              · have h2 := two_le_length_of_not_singular ll hcparts.1 hsf
                have h3 := remove_leaf_len_ge ll k
                intro hnil
                rw [hnil] at h3
                simp at h3
                omega
              · left
                rcases hcparts.2.1 with h4 | h4
                · exact h4
                · exact absurd h4 hsing
              · exact distinct_remove_leaf ll k hcparts.2.2
            · rw [entriesOfL_cons, entriesOfL_cons, entriesOf_container,
                entriesOf_container]
              have := remove_leaf_len ll k ⟨l, hlm, hlk⟩
              simp only [List.length_append, List.length_map]
              omega
        | internal ci mc =>
          rw [fv_slot_internal] at hpres
          have hip := wfNode_internal_parts ci (level + 1) mc hparts.2.2.1
          have hszc : sizeL mc < sz := by
            have : sizeN (innert.internal ci mc) = 1 + sizeL mc := rfl
            omega
          have hih := ih mc (level + 1) k w hszc hip.1 hip.2 hpres
          have hargs : erase_children mc (key_suffix h k level >>> chunk &&& mask)
              (key_suffix h k level >>> chunk >>> chunk) k =
              erase_children mc (key_suffix h k (level + 1) &&& mask)
                (key_suffix h k (level + 1) >>> chunk) k := by
            rw [← key_suffix_succ]
          by_cases hemp : (erase_children mc (key_suffix h k (level + 1) &&& mask)
              (key_suffix h k (level + 1) >>> chunk) k).isEmpty = true
          · -- the subtree below this child collapses: drop the slot
            have hecnil : erase_children mc (key_suffix h k (level + 1) &&& mask)
                (key_suffix h k (level + 1) >>> chunk) k = [] := by
              cases he : erase_children mc (key_suffix h k (level + 1) &&& mask)
                  (key_suffix h k (level + 1) >>> chunk) k with
              | nil => rfl
              | cons x y => rw [he] at hemp; simp at hemp
            have hone : (entriesOfL mc).length = 1 := by
              have := hih.2.2.2
              rw [hecnil] at this
              simpa using this.symm
            have hmem : (k, w) ∈ entriesOfL mc :=
              fv_sound (sizeL mc) mc (key_suffix h k (level + 1)) k w le_rfl hpres
            have hsingle : entriesOfL mc = [(k, w)] :=
              eq_singleton_of_len_one _ _ hone hmem
            rw [ec_cons_int, if_pos hb, hargs, if_pos hemp]
            refine ⟨?_, hstl, hparts.2.2.2, ?_⟩
            · intro k'
              by_cases h3 : k' = k
              · rw [if_pos h3, h3]
                exact fvL_tail_none b _ tl _ k hs hb
              · rw [if_neg h3]
                by_cases h1 : b = key_suffix h k' level &&& mask
                · rw [fvL_cons_eq _ _ _ _ _ h1, fv_slot_internal]
                  have hnone : find_value_inL mc (key_suffix h k' level >>> chunk) k'
                      = none := by
                    cases hf3 : find_value_inL mc (key_suffix h k' level >>> chunk) k' with
                    | none => rfl
                    | some v2 =>
                      have := fv_sound (sizeL mc) mc _ k' v2 le_rfl hf3
                      rw [hsingle] at this
                      rcases List.mem_singleton.mp this with h4
                      exact absurd (congrArg Prod.fst h4) (by simpa using h3)
                  rw [hnone]
                  exact fvL_tail_none b _ tl _ k' hs h1
                · rw [fvL_cons_ne _ _ _ _ _ h1]
            · rw [entriesOfL_cons, entriesOf_internal]
              simp only [List.length_append, entriesOfL_nil, List.length_nil]
              omega
          · -- the subtree stays: replace the slot
            rw [ec_cons_int, if_pos hb, hargs, if_neg hemp]
            refine ⟨?_, ?_, ?_, ?_⟩
            · intro k'
              by_cases h1 : b = key_suffix h k' level &&& mask
              · rw [fvL_cons_eq _ _ _ _ _ h1, fv_slot_internal,
                  show key_suffix h k' level >>> chunk =
                    key_suffix h k' (level + 1) from (key_suffix_succ h k' level).symm,
                  hih.1 k', fvL_cons_eq _ _ _ _ _ h1, fv_slot_internal,
                  show key_suffix h k' level >>> chunk =
                    key_suffix h k' (level + 1) from (key_suffix_succ h k' level).symm]
              · rw [fvL_cons_ne _ _ _ _ _ h1, fvL_cons_ne _ _ _ _ _ h1]
                have hk2 : k' ≠ k := fun he => h1 (by rw [he, ← hb])
                rw [if_neg hk2]
            · rw [sortedA_replace_snd b _ (innert.internal ci mc) tl]
              exact hs
            · refine wfChildren_build _ _ _ _ rfl
                (non_degenerate_internal_of_ne_nil _ _ ?_)
                (wfNode_internal_build _ _ _ hih.2.1 hih.2.2.1) hparts.2.2.2
              intro hnil
              rw [hnil] at hemp
              simp at hemp
            · rw [entriesOfL_cons, entriesOfL_cons, entriesOf_internal,
                entriesOf_internal]
              simp only [List.length_append]
              have := hih.2.2.2
              omega
      · -- a different slot: keep the head, recurse on the tail
        rw [fvL_cons_ne _ _ _ _ _ (fun he => hb he)] at hpres
        have hih2 := ih2 (by omega) hstl hparts.2.2.2 hpres
        rw [ec_cons_ne _ _ _ _ _ _ hb]
        refine ⟨?_, ?_, ?_, ?_⟩
        · intro k'
          by_cases h1 : b = key_suffix h k' level &&& mask
          · have hk2 : k' ≠ k := fun he => hb (by rw [← he, ← h1])
            rw [fvL_cons_eq _ _ _ _ _ h1, fvL_cons_eq _ _ _ _ _ h1,
              if_neg hk2]
          · rw [fvL_cons_ne _ _ _ _ _ h1, fvL_cons_ne _ _ _ _ _ h1,
              hih2.1 k']
        · apply sortedA_cons_of_lt
          · intro p hp
            have := mem_ec_keys tl (key_suffix h k level &&& mask)
              (key_suffix h k level >>> chunk) k p hp
            obtain ⟨q, hq, hqe⟩ := List.mem_map.mp this
            rw [← hqe]
            exact sortedA_head_lt b c tl hs q hq
          · exact hih2.2.1
        · exact wfChildren_build _ _ _ _ hparts.1 hparts.2.1 hparts.2.2.1
            hih2.2.2.1
        · rw [entriesOfL_cons, entriesOfL_cons]
          simp only [List.length_append]
          have := hih2.2.2.2
          omega

/-! ## Erasing the freshly inserted key undoes the migration -/

theorem migrate_loop_erase (h : Nat → Nat) :
    ∀ fuel j key keyE (ci : Nat) (l0 : leaft) (k v : Nat),
      levels - j ≤ fuel → j < levels →
      key = key_suffix h k j → keyE = key_suffix h l0.key j → k ≠ l0.key →
      ∃ cm, migrate_loop j key keyE (.container ci [l0]) k v = .internal 0 cm ∧
        erase_children cm (key &&& mask) (key >>> chunk) k ≠ [] ∧
        entriesOfL (erase_children cm (key &&& mask) (key >>> chunk) k) =
          [(l0.key, l0.value)] := by
  intro fuel
  induction fuel with
  | zero => intro j key keyE ci l0 k v hfuel hj; omega
  | succ fuel ih =>
    intro j key keyE ci l0 k v hfuel hj hk hE hkne
    by_cases hbits : key &&& mask = keyE &&& mask
    · -- still agreeing: single-child node above the recursive chain
      rw [migrate_loop_same j key keyE _ k v hj hbits]
      by_cases hj1 : j + 1 < levels
      · obtain ⟨cm2, hrec, hne2, hent2⟩ := ih (j + 1) (key >>> chunk)
          (keyE >>> chunk) ci l0 k v (by omega) hj1
          (by rw [hk, key_suffix_succ]) (by rw [hE, key_suffix_succ]) hkne
        refine ⟨_, rfl, ?_, ?_⟩
        · rw [hrec, ec_cons_int, if_pos rfl]
          have hemp : (erase_children cm2 (key >>> chunk &&& mask)
              (key >>> chunk >>> chunk) k).isEmpty = false := by
            cases he : erase_children cm2 (key >>> chunk &&& mask)
                (key >>> chunk >>> chunk) k with
            | nil => exact absurd he hne2
            | cons x y => rfl
          rw [if_neg (by rw [hemp]; simp)]
          simp
        · rw [hrec, ec_cons_int, if_pos rfl]
          have hemp : (erase_children cm2 (key >>> chunk &&& mask)
              (key >>> chunk >>> chunk) k).isEmpty = false := by
            cases he : erase_children cm2 (key >>> chunk &&& mask)
                (key >>> chunk >>> chunk) k with
            | nil => exact absurd he hne2
            | cons x y => rfl
          rw [if_neg (by rw [hemp]; simp)]
          rw [entriesOfL_cons, entriesOfL_nil, List.nil_append,
            entriesOf_internal]
          exact hent2
      · -- the next step is the bottom container with both leaves chained
        rw [migrate_loop_bottom (j + 1) (key >>> chunk) (keyE >>> chunk) _ k v hj1]
        rw [show front_leaf (innert.container ci [l0]) = [l0] from rfl]
        refine ⟨_, rfl, ?_, ?_⟩
        · rw [ec_cons_cont, if_pos rfl,
            if_neg (show ¬is_singular [⟨0, k, v⟩, l0] = true by simp [is_singular])]
          simp
        · rw [ec_cons_cont, if_pos rfl,
            if_neg (show ¬is_singular [⟨0, k, v⟩, l0] = true by simp [is_singular])]
          rw [show remove_leaf [⟨0, k, v⟩, l0] k = [l0] by
            rw [remove_leaf_cons, if_pos rfl]]
          rw [entriesOfL_cons, entriesOfL_nil, List.nil_append,
            entriesOf_container]
          rfl
    · -- diverging: the new container is removed, the old one remains
      rw [migrate_loop_diverge j key keyE _ k v hj hbits]
      by_cases hsplit : key &&& mask < keyE &&& mask
      · rw [if_pos hsplit]
        refine ⟨_, rfl, ?_, ?_⟩
        · rw [ec_cons_cont, if_pos rfl, if_pos (by simp [is_singular])]
          simp
        · rw [ec_cons_cont, if_pos rfl, if_pos (by simp [is_singular])]
          rw [entriesOfL_cons, entriesOfL_nil, List.nil_append,
            entriesOf_container]
          rfl
      · rw [if_neg hsplit]
        refine ⟨_, rfl, ?_, ?_⟩
        · rw [ec_cons_ne _ _ _ _ _ _ (fun he => hbits he.symm),
            ec_cons_cont, if_pos rfl, if_pos (by simp [is_singular])]
          simp
        · rw [ec_cons_ne _ _ _ _ _ _ (fun he => hbits he.symm),
            ec_cons_cont, if_pos rfl, if_pos (by simp [is_singular])]
          rw [entriesOfL_cons, entriesOfL_nil, List.nil_append,
            entriesOf_container]
          rfl

/-! ## Erase after insert restores the stored entries exactly -/

theorem insert_erase_children_spec (h : Nat → Nat) :
    ∀ sz (m : List (Nat × innert)) (level k v : Nat), sizeL m < sz →
      sortedA m = true → wfChildren m level = true →
      find_value_inL m (key_suffix h k level) k = none →
      entriesOfL (erase_children
        (insert_children h m level (key_suffix h k level) k v)
        (key_suffix h k level &&& mask) (key_suffix h k level >>> chunk) k) =
      entriesOfL m := by
  intro sz
  induction sz with
  | zero => intro m level k v hsz; omega
  | succ sz ih =>
    intro m level k v hsz hs hwc habs
    induction m with
    | nil =>
      rw [ic_nil, ec_cons_cont, if_pos rfl, if_pos (by simp [is_singular])]
    | cons hd tl ih2 =>
      obtain ⟨b, c⟩ := hd
      rw [sizeL_cons] at hsz
      have hcpos := sizeN_pos c
      have hparts := wfChildren_parts b level c tl hwc
      have hstl := sortedA_tail b c tl hs
      by_cases hlt : key_suffix h k level &&& mask < b
      · rw [ic_cons, if_pos hlt, ec_cons_cont, if_pos rfl,
          if_pos (by simp [is_singular])]
      · by_cases heqb : key_suffix h k level &&& mask = b
        · rw [fvL_cons_eq _ _ _ _ _ heqb.symm, ← key_suffix_succ] at habs
          have hneb : ¬(key_suffix h k level &&& mask < b) := hlt
          cases c with
          | empty =>
            rw [ic_cons, if_neg hneb, if_pos heqb, is_empty_eq,
              place_leaf_empty, ec_cons_cont, if_pos heqb.symm,
              if_pos (by simp [is_singular])]
            rw [entriesOfL_cons, entriesOf_empty]
            simp
          | container ci ll =>
            have hcparts := wfNode_container_parts ci (level + 1) ll
              hparts.2.2.1
            by_cases hlev : level < levels - 1
            · have hsing : is_singular ll = true := by
                rcases hcparts.2.1 with h3 | h3
                · have := levels_eq; omega
                · exact h3
              obtain ⟨l0, rfl⟩ := is_singular_eq ll hsing
              rw [fv_slot_container, fv_single_leaf] at habs
              have hkne : k ≠ l0.key := by
                intro he
                rw [if_pos he] at habs
                simp at habs
              obtain ⟨cm, hchain, hne2, hent2⟩ := migrate_loop_erase h levels
                (level + 1) (key_suffix h k (level + 1))
                (key_suffix h l0.key (level + 1)) ci l0 k v (by omega)
                (by have := levels_eq; omega) rfl rfl hkne
              have hslot : insert_slot h (.container ci [l0]) level
                  (key_suffix h k level) k v = .internal 0 cm := by
                rw [is_container_eq, if_pos hlev, migrate_eq]
                rw [show front_key (.container ci [l0]) = l0.key from rfl]
                rw [show (h l0.key >>> (chunk * level)) =
                  key_suffix h l0.key level from rfl]
                rw [← key_suffix_succ, ← key_suffix_succ]
                exact hchain
              rw [ic_cons, if_neg hneb, if_pos heqb, hslot, ec_cons_int,
                if_pos heqb.symm]
              rw [key_suffix_succ h k level] at hne2
              have hemp : (erase_children cm
                  (key_suffix h k level >>> chunk &&& mask)
                  (key_suffix h k level >>> chunk >>> chunk) k).isEmpty
                  = false := by
                cases he : erase_children cm (key_suffix h k level >>> chunk &&& mask)
                    (key_suffix h k level >>> chunk >>> chunk) k with
                | nil => exact absurd he hne2
                | cons x y => rfl
              rw [if_neg (by rw [hemp]; simp)]
              rw [entriesOfL_cons, entriesOfL_cons, entriesOf_internal,
                entriesOf_container]
              rw [key_suffix_succ h k level] at hent2
              rw [hent2]
              rfl
            · rw [ic_cons, if_neg hneb, if_pos heqb, is_container_eq,
                if_neg hlev, place_leaf_container, ec_cons_cont,
                if_pos heqb.symm]
              have hllne : ll ≠ [] := hcparts.1
              rw [if_neg (show ¬is_singular (⟨0, k, v⟩ :: ll) = true by
                cases ll with
                | nil => exact absurd rfl hllne
                | cons x y => simp [is_singular])]
              rw [show remove_leaf ((⟨0, k, v⟩ : leaft) :: ll) k = ll by
                rw [remove_leaf_cons, if_pos rfl]]
          | internal ci mc =>
            rw [fv_slot_internal] at habs
            have hip := wfNode_internal_parts ci (level + 1) mc hparts.2.2.1
            have hszc : sizeL mc < sz := by
              have : sizeN (innert.internal ci mc) = 1 + sizeL mc := rfl
              omega
            have hih := ih mc (level + 1) k v hszc hip.1 hip.2 habs
            have hslot : insert_slot h (.internal ci mc) level
                (key_suffix h k level) k v =
                .internal ci (insert_children h mc (level + 1)
                  (key_suffix h k (level + 1)) k v) := by
              rw [is_internal_eq, ← key_suffix_succ]
            rw [ic_cons, if_neg hneb, if_pos heqb, hslot, ec_cons_int,
              if_pos heqb.symm,
              show key_suffix h k level >>> chunk = key_suffix h k (level + 1)
                from (key_suffix_succ h k level).symm]
            have hmcne : entriesOfL mc ≠ [] := by
              have := entries_ne_nil (sizeN (innert.internal ci mc))
                (innert.internal ci mc) (level + 1) le_rfl rfl hparts.2.1
                hparts.2.2.1
              rw [entriesOf_internal] at this
              exact this
            have hecne : erase_children (insert_children h mc (level + 1)
                (key_suffix h k (level + 1)) k v)
                (key_suffix h k (level + 1) &&& mask)
                (key_suffix h k (level + 1) >>> chunk) k ≠ [] := by
              intro hnil
              have := hih
              rw [hnil] at this
              exact hmcne (by rw [← this]; rfl)
            have hemp : (erase_children (insert_children h mc (level + 1)
                (key_suffix h k (level + 1)) k v)
                (key_suffix h k (level + 1) &&& mask)
                (key_suffix h k (level + 1) >>> chunk) k).isEmpty
                = false := by
              cases he : erase_children (insert_children h mc (level + 1)
                  (key_suffix h k (level + 1)) k v)
                  (key_suffix h k (level + 1) &&& mask)
                  (key_suffix h k (level + 1) >>> chunk) k with
              | nil => exact absurd he hecne
              | cons x y => rfl
            rw [if_neg (by rw [hemp]; simp)]
            rw [entriesOfL_cons, entriesOfL_cons, entriesOf_internal,
              entriesOf_internal]
            rw [hih]
        · have hgt : b < key_suffix h k level &&& mask := by omega
          rw [fvL_cons_ne _ _ _ _ _ (fun he => heqb he.symm)] at habs
          have hih2 := ih2 (by omega) hstl hparts.2.2.2 habs
          rw [ic_cons, if_neg hlt, if_neg heqb,
            ec_cons_ne _ _ _ _ _ _ (fun he => heqb he.symm)]
          rw [entriesOfL_cons, entriesOfL_cons, hih2]

/-! ## Handle-level consequences of the list-level specifications -/

theorem insert_node_empty (h : Nat → Nat) (level key k v : Nat) :
    insert_node h .empty level key k v =
      .internal 0 (insert_children h [] level key k v) := rfl

theorem insert_node_internal (h : Nat → Nat) (i level key k v : Nat)
    (m : List (Nat × innert)) :
    insert_node h (.internal i m) level key k v =
      .internal i (insert_children h m level key k v) := rfl

theorem insert_eq (h : Nat → Nat) (M : sharing_mapt) (k v : Nat) :
    insert h M k v = ⟨insert_node h M.map 0 (h k) k v, M.num + 1⟩ := rfl

theorem erase_eq_of_root (h : Nat → Nat) (M : sharing_mapt) (k i : Nat)
    (m : List (Nat × innert)) (hroot : M.map = .internal i m) :
    erase h M k = ⟨.internal i (erase_children m (h k &&& mask)
      (h k >>> chunk) k), M.num - 1⟩ := by
  unfold erase
  rw [hroot]

theorem find_num_zero (h : Nat → Nat) (M : sharing_mapt) (k : Nat)
    (hz : M.num = 0) : find h M k = none := by
  unfold find get_leaf_node get_container_node
  rw [if_pos (by simpa using hz)]
  rfl

theorem find_eq_fv (h : Nat → Nat) (M : sharing_mapt) (k : Nat)
    (hnz : M.num ≠ 0) : find h M k = find_value_in M.map (h k) k := by
  unfold find get_leaf_node get_container_node find_value_in
  rw [if_neg (by simpa using hnz)]
  cases get_container_loop M.map (h k) <;> rfl

theorem has_key_eq (h : Nat → Nat) (M : sharing_mapt) (k : Nat) :
    has_key h M k = (find h M k).isSome := by
  unfold has_key find
  cases get_leaf_node h M k <;> rfl

theorem find_root_internal (h : Nat → Nat) (i : Nat) (m : List (Nat × innert))
    (num k : Nat) (hnz : num ≠ 0) :
    find h ⟨.internal i m, num⟩ k = find_value_inL m (h k) k := by
  rw [find_eq_fv h ⟨.internal i m, num⟩ k hnz]
  exact fv_internal i m (h k) k

theorem wf_root_shape (M : sharing_mapt) (hwf : wfMap M = true) :
    M.map = .empty ∨ ∃ i m, M.map = .internal i m := by
  obtain ⟨hic, -, -⟩ := wfMap_parts M hwf
  cases hm : M.map with
  | empty => exact Or.inl rfl
  | internal i m => exact Or.inr ⟨i, m, rfl⟩
  | container i ll => rw [hm] at hic; simp [is_container] at hic

theorem wfMap_build (i num : Nat) (m : List (Nat × innert))
    (hs : sortedA m = true) (hwc : wfChildren m 0 = true)
    (hn : num = (entriesOfL m).length) :
    wfMap ⟨.internal i m, num⟩ = true := by
  show (!is_container (.internal i m) && wfNode (.internal i m) 0 &&
    (num == (entriesOf (.internal i m)).length)) = true
  rw [wfNode_internal, hs, hwc, entriesOf_internal, hn]
  simp [is_container]

theorem absent_fvL (h : Nat → Nat) (M : sharing_mapt) (i : Nat)
    (m : List (Nat × innert)) (k : Nat) (hroot : M.map = .internal i m)
    (hlenm : M.num = (entriesOfL m).length)
    (habs : has_key h M k = false) :
    find_value_inL m (h k) k = none := by
  by_cases hz : M.num = 0
  · exact fvL_none_of_entries_nil m (h k) k
      (List.eq_nil_of_length_eq_zero (by omega))
  · have h2 : find h M k = none := by
      cases hf : find h M k with
      | none => rfl
      | some w => rw [has_key_eq, hf] at habs; simp at habs
    rw [find_eq_fv h M k hz, hroot, fv_internal] at h2
    exact h2

theorem insert_spec (h : Nat → Nat) (M : sharing_mapt) (k v : Nat)
    (hwf : wfMap M = true) (habs : has_key h M k = false) :
    (∀ k', find h (insert h M k v) k' =
      if k' = k then some v else find h M k') ∧
    wfMap (insert h M k v) = true ∧
    size (insert h M k v) = size M + 1 := by
  obtain ⟨hic, hwn, hlen⟩ := wfMap_parts M hwf
  rcases wf_root_shape M hwf with hroot | ⟨i, m, hroot⟩
  · have hnum0 : M.num = 0 := by
      rw [hroot, entriesOf_empty] at hlen
      simpa using hlen
    have hspec := insert_children_spec h (sizeL [] + 1) [] 0 k v
      (by omega) sortedA_nil (wfChildren_nil 0) (by rw [fvL_nil])
    simp only [key_suffix_zero] at hspec
    obtain ⟨hfind, hsorted, hwc, hlen2⟩ := hspec
    have hmap : insert h M k v =
        ⟨.internal 0 (insert_children h [] 0 (h k) k v), M.num + 1⟩ := by
      rw [insert_eq, hroot, insert_node_empty]
    refine ⟨?_, ?_, rfl⟩
    · intro k'
      rw [hmap, find_root_internal h 0 _ (M.num + 1) k' (by omega), hfind k']
      by_cases hk' : k' = k
      · rw [if_pos hk', if_pos hk']
      · rw [if_neg hk', if_neg hk', fvL_nil, find_num_zero h M k' hnum0]
    · rw [hmap]
      exact wfMap_build 0 (M.num + 1) _ hsorted hwc
        (by rw [hlen2, entriesOfL_nil]; simp [hnum0])
  · have hsm : sortedA m = true ∧ wfChildren m 0 = true := by
      rw [hroot, wfNode_internal, Bool.and_eq_true] at hwn
      exact hwn
    have hlenm : M.num = (entriesOfL m).length := by
      rw [hroot, entriesOf_internal] at hlen
      exact hlen
    have habsL := absent_fvL h M i m k hroot hlenm habs
    have hspec := insert_children_spec h (sizeL m + 1) m 0 k v
      (by omega) hsm.1 hsm.2 (by rw [key_suffix_zero]; exact habsL)
    simp only [key_suffix_zero] at hspec
    obtain ⟨hfind, hsorted, hwc, hlen2⟩ := hspec
    have hmap : insert h M k v =
        ⟨.internal i (insert_children h m 0 (h k) k v), M.num + 1⟩ := by
      rw [insert_eq, hroot, insert_node_internal]
    refine ⟨?_, ?_, rfl⟩
    · intro k'
      rw [hmap, find_root_internal h i _ (M.num + 1) k' (by omega), hfind k']
      by_cases hk' : k' = k
      · rw [if_pos hk', if_pos hk']
      · rw [if_neg hk', if_neg hk']
        by_cases hz : M.num = 0
        · rw [find_num_zero h M k' hz]
          exact fvL_none_of_entries_nil m (h k') k'
            (List.eq_nil_of_length_eq_zero (by omega))
        · rw [find_eq_fv h M k' hz, hroot, fv_internal]
    · rw [hmap]
      exact wfMap_build i (M.num + 1) _ hsorted hwc (by omega)

theorem erase_spec (h : Nat → Nat) (M : sharing_mapt) (k : Nat)
    (hwf : wfMap M = true) (hpres : has_key h M k = true) :
    (∀ k', find h (erase h M k) k' =
      if k' = k then none else find h M k') ∧
    wfMap (erase h M k) = true ∧
    size (erase h M k) + 1 = size M := by
  obtain ⟨hic, hwn, hlen⟩ := wfMap_parts M hwf
  have hw : ∃ w, find h M k = some w := by
    rw [has_key_eq] at hpres
    cases hf : find h M k with
    | none => rw [hf] at hpres; simp at hpres
    | some w => exact ⟨w, rfl⟩
  obtain ⟨w, hfw⟩ := hw
  have hnz : M.num ≠ 0 := by
    intro hz
    rw [find_num_zero h M k hz] at hfw
    exact Option.noConfusion hfw
  rcases wf_root_shape M hwf with hroot | ⟨i, m, hroot⟩
  · rw [find_eq_fv h M k hnz, hroot, fv_empty] at hfw
    exact Option.noConfusion hfw
  · have hsm : sortedA m = true ∧ wfChildren m 0 = true := by
      rw [hroot, wfNode_internal, Bool.and_eq_true] at hwn
      exact hwn
    have hlenm : M.num = (entriesOfL m).length := by
      rw [hroot, entriesOf_internal] at hlen
      exact hlen
    have hpresL : find_value_inL m (h k) k = some w := by
      rw [find_eq_fv h M k hnz, hroot, fv_internal] at hfw
      exact hfw
    have hspec := erase_children_spec h (sizeL m + 1) m 0 k w
      (by omega) hsm.1 hsm.2 (by rw [key_suffix_zero]; exact hpresL)
    simp only [key_suffix_zero] at hspec
    obtain ⟨hfind, hsorted, hwc, hlen2⟩ := hspec
    have hmap := erase_eq_of_root h M k i m hroot
    refine ⟨?_, ?_, ?_⟩
    · intro k'
      by_cases hz1 : M.num - 1 = 0
      · rw [hmap, find_num_zero h _ k' hz1]
        by_cases hk' : k' = k
        · rw [if_pos hk']
        · rw [if_neg hk']
          have hnil : entriesOfL (erase_children m (h k &&& mask)
              (h k >>> chunk) k) = [] :=
            List.eq_nil_of_length_eq_zero (by omega)
          have h1 := hfind k'
          rw [if_neg hk', fvL_none_of_entries_nil _ (h k') k' hnil] at h1
          rw [find_eq_fv h M k' hnz, hroot, fv_internal, ← h1]
      · rw [hmap, find_root_internal h i _ (M.num - 1) k' hz1, hfind k']
        by_cases hk' : k' = k
        · rw [if_pos hk', if_pos hk']
        · rw [if_neg hk', if_neg hk', find_eq_fv h M k' hnz, hroot,
            fv_internal]
    · rw [hmap]
      exact wfMap_build i (M.num - 1) _ hsorted hwc (by omega)
    · rw [hmap]
      show M.num - 1 + 1 = size M
      have : 1 ≤ M.num := Nat.one_le_iff_ne_zero.mpr hnz
      show M.num - 1 + 1 = M.num
      omega

theorem insert_erase_entries (h : Nat → Nat) (M : sharing_mapt) (k v : Nat)
    (hwf : wfMap M = true) (habs : has_key h M k = false) :
    entriesOf (erase h (insert h M k v) k).map = entriesOf M.map := by
  obtain ⟨hic, hwn, hlen⟩ := wfMap_parts M hwf
  rcases wf_root_shape M hwf with hroot | ⟨i, m, hroot⟩
  · have hmap1 : insert h M k v =
        ⟨.internal 0 (insert_children h [] 0 (h k) k v), M.num + 1⟩ := by
      rw [insert_eq, hroot, insert_node_empty]
    rw [hmap1, erase_eq_of_root h _ k 0 _ rfl, hroot, entriesOf_empty]
    have hspec := insert_erase_children_spec h (sizeL [] + 1) [] 0 k v
      (by omega) sortedA_nil (wfChildren_nil 0) (by rw [fvL_nil])
    simp only [key_suffix_zero] at hspec
    show entriesOf (.internal 0 (erase_children
      (insert_children h [] 0 (h k) k v) (h k &&& mask) (h k >>> chunk) k)) = []
    rw [entriesOf_internal, hspec, entriesOfL_nil]
  · have hsm : sortedA m = true ∧ wfChildren m 0 = true := by
      rw [hroot, wfNode_internal, Bool.and_eq_true] at hwn
      exact hwn
    have hlenm : M.num = (entriesOfL m).length := by
      rw [hroot, entriesOf_internal] at hlen
      exact hlen
    have habsL := absent_fvL h M i m k hroot hlenm habs
    have hmap1 : insert h M k v =
        ⟨.internal i (insert_children h m 0 (h k) k v), M.num + 1⟩ := by
      rw [insert_eq, hroot, insert_node_internal]
    rw [hmap1, erase_eq_of_root h _ k i _ rfl, hroot]
    have hspec := insert_erase_children_spec h (sizeL m + 1) m 0 k v
      (by omega) hsm.1 hsm.2 (by rw [key_suffix_zero]; exact habsL)
    simp only [key_suffix_zero] at hspec
    show entriesOf (.internal i (erase_children
      (insert_children h m 0 (h k) k v) (h k &&& mask) (h k >>> chunk) k)) =
      entriesOf (.internal i m)
    rw [entriesOf_internal, entriesOf_internal, hspec]

/-! ## Size bookkeeping over operation sequences -/

theorem run_ops_spec (h : Nat → Nat) :
    ∀ (ops : List smop) (M : sharing_mapt) (s : Finset Nat),
      wfMap M = true →
      (∀ k, has_key h M k = true ↔ k ∈ s) →
      size M = s.card →
      valid_ops h M ops →
      size (run_ops h M ops) = (live_keys s ops).card := by
  intro ops
  induction ops with
  | nil =>
    intro M s hwf hmem hsz hv
    exact hsz
  | cons o rest ih =>
    intro M s hwf hmem hsz hv
    cases o with
    | ins k v =>
      obtain ⟨habs, hv2⟩ := hv
      obtain ⟨hfind, hwf2, hsz2⟩ := insert_spec h M k v hwf habs
      have hknot : k ∉ s := by
        intro hk
        have h1 := (hmem k).mpr hk
        rw [habs] at h1
        simp at h1
      have hmem2 : ∀ k', has_key h (insert h M k v) k' = true ↔
          k' ∈ Insert.insert k s := by
        intro k'
        rw [has_key_eq, hfind k']
        by_cases hk' : k' = k
        · simp [hk', Finset.mem_insert]
        · rw [if_neg hk', ← has_key_eq]
          simp [Finset.mem_insert, hk', hmem k']
      have hsz3 : size (insert h M k v) = (Insert.insert k s).card := by
        rw [hsz2, hsz, Finset.card_insert_of_not_mem hknot]
      exact ih (insert h M k v) (Insert.insert k s) hwf2 hmem2 hsz3 hv2
    | del k =>
      obtain ⟨hpres, hv2⟩ := hv
      obtain ⟨hfind, hwf2, hsz2⟩ := erase_spec h M k hwf hpres
      have hkin : k ∈ s := (hmem k).mp hpres
      have hmem2 : ∀ k', has_key h (erase h M k) k' = true ↔
          k' ∈ s.erase k := by
        intro k'
        rw [has_key_eq, hfind k']
        by_cases hk' : k' = k
        · simp [hk', Finset.mem_erase]
        · rw [if_neg hk', ← has_key_eq]
          simp [Finset.mem_erase, hk', hmem k']
      have hsz3 : size (erase h M k) = (s.erase k).card := by
        rw [Finset.card_erase_of_mem hkin]
        omega
      exact ih (erase h M k) (s.erase k) hwf2 hmem2 hsz3 hv2

/-! ## Replace: per-case equations and the value-overwrite lemma -/

theorem slv_nil (k v : Nat) : set_leaf_value [] k v = [] := rfl

theorem slv_cons (l : leaft) (rest : List leaft) (k v : Nat) :
    set_leaf_value (l :: rest) k v =
      if l.key == k then ⟨l.lid, l.key, v⟩ :: rest
      else l :: set_leaf_value rest k v := rfl

theorem find_set_leaf_value (ll : List leaft) (k v : Nat) :
    ((set_leaf_value ll k v).find? fun l => l.key == k) =
      (ll.find? fun l => l.key == k).map fun l => ⟨l.lid, l.key, v⟩ := by
  induction ll with
  | nil => rfl
  | cons l rest ih =>
    rw [slv_cons]
    by_cases hk : (l.key == k) = true
    · rw [if_pos hk]
      simp only [List.find?_cons, hk]
      rfl
    · rw [if_neg (by simpa using hk)]
      simp only [Bool.not_eq_true] at hk
      simp only [List.find?_cons, hk, ih]

theorem rc_nil (bit key k v : Nat) : replace_children [] bit key k v = [] := by
  rw [replace_children]

theorem rc_cons_cont (b ci bit key k v : Nat) (ll : List leaft)
    (rest : List (Nat × innert)) :
    replace_children ((b, .container ci ll) :: rest) bit key k v =
      if b = bit then (b, .container ci (set_leaf_value ll k v)) :: rest
      else (b, .container ci ll) :: replace_children rest bit key k v := by
  rw [replace_children]

theorem rc_cons_int (b ci bit key k v : Nat) (mc rest : List (Nat × innert)) :
    replace_children ((b, .internal ci mc) :: rest) bit key k v =
      if b = bit then
        (b, .internal ci (replace_children mc (key &&& mask) (key >>> chunk)
          k v)) :: rest
      else (b, .internal ci mc) :: replace_children rest bit key k v := by
  rw [replace_children]

theorem rc_cons_empty (b bit key k v : Nat) (rest : List (Nat × innert)) :
    replace_children ((b, .empty) :: rest) bit key k v =
      if b = bit then (b, .empty) :: rest
      else (b, .empty) :: replace_children rest bit key k v := by
  rw [replace_children]

theorem replace_children_find :
    ∀ sz (m : List (Nat × innert)) (key k v : Nat), sizeL m ≤ sz →
      find_value_inL (replace_children m (key &&& mask) (key >>> chunk) k v)
        key k = (find_value_inL m key k).map fun _ => v := by
  intro sz
  induction sz with
  | zero =>
    intro m key k v hsz
    cases m with
    | nil => rw [rc_nil, fvL_nil]; rfl
    | cons hd tl =>
      obtain ⟨b, c⟩ := hd
      have := sizeN_pos c
      rw [sizeL_cons] at hsz
      omega
  | succ sz ih =>
    intro m key k v hsz
    induction m with
    | nil => rw [rc_nil, fvL_nil]; rfl
    | cons hd tl ih2 =>
      obtain ⟨b, c⟩ := hd
      rw [sizeL_cons] at hsz
      have hcpos := sizeN_pos c
      by_cases hb : b = key &&& mask
      · cases c with
        | empty =>
          rw [rc_cons_empty, if_pos hb, fvL_cons_eq _ _ _ _ _ hb,
            fv_slot_empty]
          rfl
        | container ci ll =>
          rw [rc_cons_cont, if_pos hb, fvL_cons_eq _ _ _ _ _ hb,
            fvL_cons_eq _ _ _ _ _ hb, fv_slot_container, fv_slot_container,
            find_set_leaf_value]
          cases List.find? (fun l => l.key == k) ll <;> rfl
        | internal ci mc =>
          rw [rc_cons_int, if_pos hb, fvL_cons_eq _ _ _ _ _ hb,
            fvL_cons_eq _ _ _ _ _ hb, fv_slot_internal, fv_slot_internal]
          have hszc : sizeL mc ≤ sz := by
            have h1 : sizeN (innert.internal ci mc) = 1 + sizeL mc := rfl
            omega
          exact ih mc (key >>> chunk) k v hszc
      · cases c with
        | empty =>
          rw [rc_cons_empty, if_neg hb, fvL_cons_ne _ _ _ _ _ hb,
            fvL_cons_ne _ _ _ _ _ hb]
          exact ih2 (by omega)
        | container ci ll =>
          rw [rc_cons_cont, if_neg hb, fvL_cons_ne _ _ _ _ _ hb,
            fvL_cons_ne _ _ _ _ _ hb]
          exact ih2 (by omega)
        | internal ci mc =>
          rw [rc_cons_int, if_neg hb, fvL_cons_ne _ _ _ _ _ hb,
            fvL_cons_ne _ _ _ _ _ hb]
          exact ih2 (by omega)

theorem replace_node_internal (i key k v : Nat) (m : List (Nat × innert)) :
    replace_node (.internal i m) key k v =
      .internal i (replace_children m (key &&& mask) (key >>> chunk) k v) :=
  rfl

theorem root_internal_of_found (h : Nat → Nat) (M : sharing_mapt) (k w : Nat)
    (hfw : find h M k = some w) :
    M.num ≠ 0 ∧ ∃ i m, M.map = .internal i m := by
  have hnz : M.num ≠ 0 := by
    intro hz
    rw [find_num_zero h M k hz] at hfw
    exact Option.noConfusion hfw
  refine ⟨hnz, ?_⟩
  rw [find_eq_fv h M k hnz] at hfw
  cases hm : M.map with
  | empty => rw [hm, fv_empty] at hfw; exact Option.noConfusion hfw
  | container i ll => rw [hm, fv_container] at hfw; exact Option.noConfusion hfw
  | internal i m => exact ⟨i, m, rfl⟩

theorem leaf_of_found (h : Nat → Nat) (M : sharing_mapt) (k w : Nat)
    (hfw : find h M k = some w) :
    ∃ l, get_leaf_node h M k = some l ∧ l.value = w := by
  unfold find at hfw
  cases hg : get_leaf_node h M k with
  | none => rw [hg] at hfw; simp at hfw
  | some l =>
    rw [hg] at hfw
    exact ⟨l, rfl, by simpa using hfw⟩

theorem find_replace_node (h : Nat → Nat) (M : sharing_mapt) (k w v : Nat)
    (hfw : find h M k = some w) :
    find h ⟨replace_node M.map (h k) k v, M.num⟩ k = some v := by
  obtain ⟨hnz, i, m, hroot⟩ := root_internal_of_found h M k w hfw
  rw [hroot, replace_node_internal, find_root_internal h i _ M.num k hnz,
    replace_children_find (sizeL m) m (h k) k v le_rfl]
  have hfvm : find_value_inL m (h k) k = some w := by
    rw [find_eq_fv h M k hnz, hroot, fv_internal] at hfw
    exact hfw
  rw [hfvm]
  rfl

theorem replace_equal_none (h : Nat → Nat) (fie : Bool) (M : sharing_mapt)
    (k w v : Nat) (hfw : find h M k = some w)
    (heq : value_equalt fie w v = true) :
    replace h fie M k v = none := by
  obtain ⟨l, hgl, hlv⟩ := leaf_of_found h M k w hfw
  unfold replace
  rw [hgl]
  simp [hlv, heq]

theorem replace_ne_some (h : Nat → Nat) (fie : Bool) (M : sharing_mapt)
    (k w v : Nat) (hfw : find h M k = some w)
    (hne : value_equalt fie w v = false) :
    replace h fie M k v = some ⟨replace_node M.map (h k) k v, M.num⟩ := by
  obtain ⟨l, hgl, hlv⟩ := leaf_of_found h M k w hfw
  unfold replace
  rw [hgl]
  simp [hlv, hne]

theorem update_equal_none (h : Nat → Nat) (fie : Bool) (M : sharing_mapt)
    (k w : Nat) (mu : Nat → Nat) (hfw : find h M k = some w)
    (heq : value_equalt fie w (mu w) = true) :
    update h fie M k mu = none := by
  obtain ⟨l, hgl, hlv⟩ := leaf_of_found h M k w hfw
  unfold update
  rw [hgl]
  simp [hlv, heq]

theorem update_ne_some (h : Nat → Nat) (fie : Bool) (M : sharing_mapt)
    (k w : Nat) (mu : Nat → Nat) (hfw : find h M k = some w)
    (hne : value_equalt fie w (mu w) = false) :
    update h fie M k mu =
      some ⟨replace_node M.map (h k) k (mu w), M.num⟩ := by
  obtain ⟨l, hgl, hlv⟩ := leaf_of_found h M k w hfw
  unfold update
  rw [hgl]
  simp [hlv, hne]

/-! ## The claims -/

/-- C1: REFUTED (code bug).  The claim states that every item emitted by
`A.get_delta_view(B, view, only_common)` carries a key present in `A`, and
that when `only_common` is true the key is also present in `B`.  The second
part fails: after scanning a container of the second map without finding the
key, `add_item_if_not_shared` (sharing_map.h:879) pushes the
first-map-only item without consulting `only_common`, contradicting its own
documentation (sharing_map.h:433-441).  Concretely: for the well-formed
maps `cexA = {64 ↦ 10}` and `cexB = {128 ↦ 20, 8 ↦ 30}` (which share no
node), the `only_common` delta view of `cexA` against `cexB` emits the key
64, which `cexB` does not hold. -/
theorem C1_delta_view_only_common_emits_absent_key :
    wfMap cexA = true ∧ wfMap cexB = true ∧
    has_key hash_id cexA 64 = true ∧
    has_key hash_id cexB 64 = false ∧
    get_delta_view hash_id cexA cexB true = [⟨64, 10, none⟩] := by
  refine ⟨by decide, by decide, by decide, by decide, ?_⟩
  simp [get_delta_view, cexA, cexB, hash_id, get_delta_view_loop,
    push_pairs_ii, push_pairs_ic, gather_missing, add_item_if_not_shared,
    add_item_go, add_item_childL, scan_container, compare_containers,
    gather_all, iterate_loop, lookup_child, shares_with, leaf_shares_with,
    is_singular, mask, chunk, dummy_level, levels, find_leaf, find_child]
  decide

/-- C2: for any well-formed map `M` and its clone — which holds the same
root node, since the copy constructor copies the root handle — the delta
view of the map against its clone is empty, for either value of
`only_common`: either the map is empty, or the two roots share and the
traversal stops before emitting anything (sharing_map.h:894-924). -/
theorem C2_delta_view_of_clone_is_empty (h : Nat → Nat) (M : sharing_mapt)
    (oc : Bool) (hwf : wfMap M = true) :
    get_delta_view h M M oc = [] := by
  obtain ⟨hic, hwn, hlen⟩ := wfMap_parts M hwf
  unfold get_delta_view
  by_cases hz : M.num = 0
  · rw [if_pos (by simpa using hz)]
  · rw [if_neg (by simpa using hz), if_neg (by simpa using hz)]
    rcases wf_root_shape M hwf with hroot | ⟨i, m, hroot⟩
    · rw [hroot, entriesOf_empty] at hlen
      simp at hlen
      exact absurd hlen hz
    · rw [hroot]
      simp [shares_with]

/-- Witness for C2 at a concrete one-element map. -/
theorem C2_delta_view_of_clone_is_empty_witness :
    wfMap (insert hash_id empty_map 3 4) = true ∧
    get_delta_view hash_id (insert hash_id empty_map 3 4)
      (insert hash_id empty_map 3 4) true = [] :=
  ⟨by decide, C2_delta_view_of_clone_is_empty hash_id
    (insert hash_id empty_map 3 4) true (by decide)⟩

/-- C3: starting from a freshly constructed map, for any sequence of inserts
and erases respecting the preconditions (keys are inserted only while
absent and erased only while present), the final `size()` equals the number
of distinct keys that have been inserted and not subsequently erased. -/
theorem C3_size_counts_live_keys (h : Nat → Nat) (ops : List smop)
    (hv : valid_ops h empty_map ops) :
    size (run_ops h empty_map ops) = (live_keys ∅ ops).card := by
  refine run_ops_spec h ops empty_map ∅ (by decide) ?_
    (by simp [size, empty_map]) hv
  intro k
  rw [show has_key h empty_map k = false from rfl]
  simp

/-- Witness for C3 at a concrete valid operation sequence. -/
theorem C3_size_counts_live_keys_witness :
    valid_ops hash_id empty_map
      [smop.ins 1 10, smop.ins 2 20, smop.del 1] ∧
    size (run_ops hash_id empty_map
      [smop.ins 1 10, smop.ins 2 20, smop.del 1]) =
      (live_keys ∅ [smop.ins 1 10, smop.ins 2 20, smop.del 1]).card := by
  have hv : valid_ops hash_id empty_map
      [smop.ins 1 10, smop.ins 2 20, smop.del 1] :=
    ⟨by decide, by decide, by decide, trivial⟩
  exact ⟨hv, C3_size_counts_live_keys hash_id _ hv⟩

/-- C4: inserting an absent key and erasing it again returns a well-formed
map to a state indistinguishable by `find` (on every key), by `size`, and by
`get_view` from its state before the insert. -/
theorem C4_insert_erase_roundtrip (h : Nat → Nat) (M : sharing_mapt)
    (k v : Nat) (hwf : wfMap M = true) (habs : has_key h M k = false) :
    (∀ k', find h (erase h (insert h M k v) k) k' = find h M k') ∧
    size (erase h (insert h M k v) k) = size M ∧
    get_view (erase h (insert h M k v) k) = get_view M := by
  obtain ⟨hfI, hwfI, hszI⟩ := insert_spec h M k v hwf habs
  have hpres : has_key h (insert h M k v) k = true := by
    rw [has_key_eq, hfI k, if_pos rfl]
    rfl
  obtain ⟨hfE, hwfE, hszE⟩ := erase_spec h (insert h M k v) k hwfI hpres
  refine ⟨?_, by omega, ?_⟩
  · intro k'
    rw [hfE k']
    by_cases hk' : k' = k
    · rw [if_pos hk', hk']
      cases hf : find h M k with
      | none => rfl
      | some w => rw [has_key_eq, hf] at habs; simp at habs
    · rw [if_neg hk', hfI k', if_neg hk']
  · rw [get_view_entries _ hwfE, get_view_entries M hwf]
    exact insert_erase_entries h M k v hwf habs

/-- Witness for C4 at a concrete one-element map and absent key. -/
theorem C4_insert_erase_roundtrip_witness :
    wfMap (insert hash_id empty_map 1 10) = true ∧
    has_key hash_id (insert hash_id empty_map 1 10) 2 = false ∧
    get_view (erase hash_id
        (insert hash_id (insert hash_id empty_map 1 10) 2 20) 2) =
      get_view (insert hash_id empty_map 1 10) :=
  ⟨by decide, by decide,
    (C4_insert_erase_roundtrip hash_id (insert hash_id empty_map 1 10) 2 20
      (by decide) (by decide)).2.2⟩

/-- C5: with `fail_if_equal` set, `replace(k, v)` on a present key (stored
value `w`) signals a contract violation (modelled as `none`) when `v`
equals `w` under the supplied value equality, and succeeds — overwriting the
value — when it differs; with the flag unset (the default) no comparison is
performed and replacing by an equal value succeeds.  `update` applies the
same comparison against the value snapshotted before the mutator ran. -/
theorem C5_replace_update_fail_if_equal (h : Nat → Nat) (M : sharing_mapt)
    (k w v : Nat) (mu : Nat → Nat) (hfw : find h M k = some w) :
    (v = w → replace h true M k v = none) ∧
    (v ≠ w → ∃ M', replace h true M k v = some M' ∧
      find h M' k = some v) ∧
    (∃ M', replace h false M k w = some M' ∧ find h M' k = some w) ∧
    (mu w = w → update h true M k mu = none) ∧
    (mu w ≠ w → ∃ M', update h true M k mu = some M' ∧
      find h M' k = some (mu w)) := by
  refine ⟨?_, ?_, ?_, ?_, ?_⟩
  · intro hv
    exact replace_equal_none h true M k w v hfw
      (by simp [value_equalt, hv])
  · intro hv
    refine ⟨⟨replace_node M.map (h k) k v, M.num⟩, ?_, ?_⟩
    · exact replace_ne_some h true M k w v hfw
        (by simp [value_equalt]; omega)
    · exact find_replace_node h M k w v hfw
  · refine ⟨⟨replace_node M.map (h k) k w, M.num⟩, ?_, ?_⟩
    · exact replace_ne_some h false M k w w hfw (by simp [value_equalt])
    · exact find_replace_node h M k w w hfw
  · intro hmu
    exact update_equal_none h true M k w mu hfw
      (by simp [value_equalt, hmu])
  · intro hmu
    refine ⟨⟨replace_node M.map (h k) k (mu w), M.num⟩, ?_, ?_⟩
    · exact update_ne_some h true M k w mu hfw
        (by simp [value_equalt]; omega)
    · exact find_replace_node h M k w (mu w) hfw

/-- Witness for C5: a map holding `(1, 5)`; replacing by the equal value 5
with the flag set is the contract violation of the spec scenario. -/
theorem C5_replace_update_fail_if_equal_witness :
    find hash_id (insert hash_id empty_map 1 5) 1 = some 5 ∧
    replace hash_id true (insert hash_id empty_map 1 5) 1 5 = none :=
  ⟨by decide,
    (C5_replace_update_fail_if_equal hash_id (insert hash_id empty_map 1 5)
      1 5 5 (fun x => x) (by decide)).1 rfl⟩

/-- C6: for two distinct keys with identical hash values (all chunk streams
agree, so the colliding leaves are chained in a bottom container), inserting
both into a well-formed map where both are absent stores both pairs: each
`find` returns its own value, and after erasing the first key the second is
still found while the first is absent. -/
theorem C6_collision_chaining (h : Nat → Nat) (M : sharing_mapt)
    (a b va vb : Nat) (hwf : wfMap M = true) (hab : a ≠ b)
    (hcol : h a = h b) (ha : has_key h M a = false)
    (hb : has_key h M b = false) :
    find h (insert h (insert h M a va) b vb) a = some va ∧
    find h (insert h (insert h M a va) b vb) b = some vb ∧
    find h (erase h (insert h (insert h M a va) b vb) a) b = some vb ∧
    find h (erase h (insert h (insert h M a va) b vb) a) a = none := by
  obtain ⟨hf1, hwf1, -⟩ := insert_spec h M a va hwf ha
  have hb1 : has_key h (insert h M a va) b = false := by
    rw [has_key_eq, hf1 b, if_neg (Ne.symm hab), ← has_key_eq]
    exact hb
  obtain ⟨hf2, hwf2, -⟩ := insert_spec h (insert h M a va) b vb hwf1 hb1
  have hpa : has_key h (insert h (insert h M a va) b vb) a = true := by
    rw [has_key_eq, hf2 a, if_neg hab, hf1 a, if_pos rfl]
    rfl
  obtain ⟨hf3, -, -⟩ := erase_spec h (insert h (insert h M a va) b vb) a
    hwf2 hpa
  refine ⟨?_, ?_, ?_, ?_⟩
  · rw [hf2 a, if_neg hab, hf1 a, if_pos rfl]
  · rw [hf2 b, if_pos rfl]
  · rw [hf3 b, if_neg (Ne.symm hab), hf2 b, if_pos rfl]
  · rw [hf3 a, if_pos rfl]

/-- Witness for C6: the constant hash sends the distinct keys 1 and 2 to the
same hash value. -/
theorem C6_collision_chaining_witness :
    wfMap empty_map = true ∧ (1 : Nat) ≠ 2 ∧
    hash_const 1 = hash_const 2 ∧
    has_key hash_const empty_map 1 = false ∧
    has_key hash_const empty_map 2 = false ∧
    find hash_const (insert hash_const (insert hash_const empty_map 1 10)
      2 20) 1 = some 10 :=
  ⟨by decide, by decide, rfl, by decide, by decide,
    (C6_collision_chaining hash_const empty_map 1 2 10 20 (by decide)
      (by decide) rfl (by decide) (by decide)).1⟩

/-- C7: CORRECTED.  The spec claims a non-empty output buffer passed to
`get_view` or `get_delta_view` is signalled through the fatal
invariant-violation channel.  The guarding `SM_ASSERT` is compiled in only
when `SM_INTERNAL_CHECKS` is defined (sharing_map.h:35-39), which is off by
default: with the checks compiled in (first flag `true`) the misuse is
fatal, as claimed, but in the default build (`false`) the produced items are
appended silently after the existing contents. -/
theorem C7_view_buffer_checks_compiled_out (h : Nat → Nat)
    (M A B : sharing_mapt) (view : List (Nat × Nat))
    (dv : List delta_view_itemt) (oc : Bool)
    (hv : view ≠ []) (hd : dv ≠ []) :
    get_view_checked true M view = none ∧
    get_delta_view_checked h true A B dv oc = none ∧
    get_view_checked false M view = some (view ++ get_view M) ∧
    get_delta_view_checked h false A B dv oc =
      some (dv ++ get_delta_view h A B oc) := by
  obtain ⟨x, xs, rfl⟩ : ∃ x xs, view = x :: xs := by
    cases view with
    | nil => exact absurd rfl hv
    | cons x xs => exact ⟨x, xs, rfl⟩
  obtain ⟨y, ys, rfl⟩ : ∃ y ys, dv = y :: ys := by
    cases dv with
    | nil => exact absurd rfl hd
    | cons y ys => exact ⟨y, ys, rfl⟩
  exact ⟨rfl, rfl, rfl, rfl⟩

/-- Witness for C7 at concrete non-empty buffers. -/
theorem C7_view_buffer_checks_compiled_out_witness :
    ([(1, 2)] : List (Nat × Nat)) ≠ [] ∧
    ([⟨1, 2, none⟩] : List delta_view_itemt) ≠ [] ∧
    get_view_checked true empty_map [(1, 2)] = none ∧
    get_view_checked false empty_map [(1, 2)] =
      some ([(1, 2)] ++ get_view empty_map) :=
  ⟨by decide, by decide,
    (C7_view_buffer_checks_compiled_out hash_id empty_map empty_map
      empty_map [(1, 2)] [⟨1, 2, none⟩] true (by decide) (by decide)).1,
    (C7_view_buffer_checks_compiled_out hash_id empty_map empty_map
      empty_map [(1, 2)] [⟨1, 2, none⟩] true
      (by decide) (by decide)).2.2.1⟩

/-- Counterexample to the original C7 claim: in the default build (checks
compiled out) a non-empty output buffer is not signalled — the produced
items are appended silently after the existing contents. -/
theorem C7_default_build_appends_silently :
    get_view_checked false empty_map [(1, 2)] = some [(1, 2)] ∧
    get_delta_view_checked hash_id false empty_map empty_map
      [⟨1, 2, none⟩] true = some [⟨1, 2, none⟩] := by
  constructor <;> rfl

/-- C8: with the default `BITS = 30` and `CHUNK = 3`, the derived constants
match the spec formulas: the chunk mask equals `2 ^ CHUNK - 1 = 7` even
though the code computes it as `0xffff >> (16 - chunk)`
(sharing_map.h:1329-1330), the height equals `BITS / CHUNK = 10`, and
`BITS` is a multiple of `CHUNK`. -/
theorem C8_derived_constants :
    mask = 2 ^ chunk - 1 ∧ mask = 7 ∧ levels = bits / chunk ∧
      levels = 10 ∧ bits % chunk = 0 :=
  ⟨by decide, by decide, rfl, by decide, by decide⟩

/-- C9: for every map and key, `has_key` holds exactly when `find` returns a
value — both are the same `get_leaf_node` lookup, so they never disagree. -/
theorem C9_has_key_agrees_with_find (h : Nat → Nat) (M : sharing_mapt)
    (k : Nat) :
    has_key h M k = true ↔ ∃ v, find h M k = some v := by
  rw [has_key_eq]
  cases find h M k <;> simp

/-- C10: after `clear()` the size is 0, `empty()` holds and every lookup
misses; and on every map `empty()` holds exactly when the size is 0. -/
theorem C10_clear_resets_map (h : Nat → Nat) (M M2 : sharing_mapt)
    (k : Nat) :
    size (clear M) = 0 ∧ sm_empty (clear M) = true ∧
    find h (clear M) k = none ∧
    (sm_empty M2 = true ↔ size M2 = 0) := by
  refine ⟨rfl, rfl, rfl, ?_⟩
  simp [sm_empty, size]

end SharingMap

